import Mathlib

/-!
Verification of the asynchronous SEO-audit pipeline: a shallow embedding of
the crawler URL handling, rule analyzer, AI fixer, scoring, and worker pool,
together with theorems settling the specification claims.

External platform behaviour (the WHATWG `URL` constructor, the browser
page-rendering capability, the text-completion capability, `JSON.parse`)
is modelled: `parseURL` is a model of the WHATWG URL parser covering the
fragment exercised by the code (absolute special-scheme URLs, non-special
authority and opaque-path URLs, and basic relative resolution; percent
encoding, punycode and dot-segment resolution are not modelled), while the
capabilities are oracles passed in as function parameters.
-/

namespace SeoSpec

/-- Lowercases an ASCII letter, leaving every other character unchanged.
Models the ASCII lowercasing the WHATWG URL parser applies to schemes and
hosts. -/
def lowerChar (c : Char) : Char :=
  if 'A' ≤ c ∧ c ≤ 'Z' then Char.ofNat (c.toNat + 32) else c

/-- First character of a URL scheme: an ASCII letter. -/
def isSchemeStartChar (c : Char) : Bool :=
  ('A' ≤ c ∧ c ≤ 'Z') ∨ ('a' ≤ c ∧ c ≤ 'z')

/-- Subsequent characters of a URL scheme. -/
def isSchemeChar (c : Char) : Bool :=
  isSchemeStartChar c ∨ ('0' ≤ c ∧ c ≤ '9') ∨ c = '+' ∨ c = '-' ∨ c = '.'

/-- Characters terminating the authority section of a URL; for special
schemes a backslash also terminates it. -/
def isAuthTerm (special : Bool) (c : Char) : Bool :=
  c = '/' ∨ c = '?' ∨ c = '#' ∨ (special ∧ c = '\\')

/-- A slash-like character skipped after the `:` of a special scheme. -/
def isSlashChar (c : Char) : Bool :=
  c = '/' ∨ c = '\\'

/-- The WHATWG special schemes (lowercased). -/
def specialSchemes : List (List Char) :=
  [['w', 's'], ['w', 's', 's'], ['h', 't', 't', 'p'], ['h', 't', 't', 'p', 's'], ['f', 't', 'p'], ['f', 'i', 'l', 'e']]

/-- Result of parsing a URL, with the components the source code reads:
`protocol` is the lowercased scheme including the trailing colon (as in the
JS `URL.protocol`), `hostname` the lowercased host without port, and
`pathname`/`search`/`hash` as in the JS `URL` object. Components are kept
as character lists; the string wrappers are below. -/
structure URLRec where
  protocol : List Char
  hostname : List Char
  pathname : List Char
  search : List Char
  hash : List Char
deriving Repr, DecidableEq

/-- Splits a leading scheme `s:` off a character list, returning the scheme
(not lowercased) and the remainder after the colon. -/
def splitScheme (l : List Char) : Option (List Char × List Char) :=
  match l with
  | [] => none
  | c :: rest =>
    if isSchemeStartChar c then
      match rest.dropWhile isSchemeChar with
      | ':' :: tail => some (c :: rest.takeWhile isSchemeChar, tail)
      | _ => none
    else none

/-- Characters after the last `@` of an authority (the host-port part,
with any userinfo removed). -/
def afterLastAt (l : List Char) : List Char :=
  (l.reverse.takeWhile (fun c => !(c = '@' : Bool))).reverse

/-- Extracts the lowercased hostname from an authority string, validating a
trailing `:port` (digits only) and bracketed IPv6 hosts; `none` models the
`URL` constructor throwing. -/
def parseHostPort (auth : List Char) : Option (List Char) :=
  let hp := afterLastAt auth
  match hp with
  | '[' :: t =>
    match t.dropWhile (fun c => !(c = ']' : Bool)) with
    | ']' :: rest =>
      let host := '[' :: (t.takeWhile (fun c => !(c = ']' : Bool)) ++ [']'])
      match rest with
      | [] => some (host.map lowerChar)
      | ':' :: p => if p.all Char.isDigit then some (host.map lowerChar) else none
      | _ => none
    | _ => none
  | _ =>
    let host := hp.takeWhile (fun c => !(c = ':' : Bool))
    match hp.dropWhile (fun c => !(c = ':' : Bool)) with
    | ':' :: p => if p.all Char.isDigit then some (host.map lowerChar) else none
    | _ => some (host.map lowerChar)

/-- Converts a backslash to a slash, as the WHATWG parser does inside the
paths of special-scheme URLs. -/
def slashify (c : Char) : Char :=
  if c = '\\' then '/' else c

/-- Applies the backslash conversion to a path when the scheme is
special. -/
def pathFix (special : Bool) (p : List Char) : List Char :=
  if special then p.map slashify else p

/-- Splits the part of a URL after the authority into pathname, search and
hash (search including its `?`, hash including its `#`). -/
def splitPSH (l : List Char) : List Char × List Char × List Char :=
  let path := l.takeWhile (fun c => !(c = '?' ∨ c = '#' : Bool))
  match l.dropWhile (fun c => !(c = '?' ∨ c = '#' : Bool)) with
  | '?' :: t => (path, '?' :: t.takeWhile (fun c => !(c = '#' : Bool)), t.dropWhile (fun c => !(c = '#' : Bool)))
  | '#' :: t => (path, [], '#' :: t)
  | _ => (path, [], [])

/-- Parses an absolute URL given its (lowercased) scheme and the characters
after the colon, following the WHATWG parser: special schemes skip all
leading slashes and reject an empty host; non-special schemes take an
authority only after `//` and otherwise have an opaque path and empty
host. -/
def parseAbs (schemeLow : List Char) (rest : List Char) : Option URLRec :=
  let special := specialSchemes.contains schemeLow
  let proto := schemeLow ++ [':']
  if special then
    let r := rest.dropWhile isSlashChar
    let auth := r.takeWhile (fun c => !isAuthTerm special c)
    let r2 := r.dropWhile (fun c => !isAuthTerm special c)
    match parseHostPort auth with
    | none => none
    | some host =>
      if host = [] then none
      else
        let psh := splitPSH r2
        some { protocol := proto, hostname := host,
               pathname := (if psh.1 = [] then ['/'] else psh.1).map slashify,
               search := psh.2.1, hash := psh.2.2 }
  else
    match rest with
    | '/' :: '/' :: r =>
      let auth := r.takeWhile (fun c => !isAuthTerm special c)
      let r2 := r.dropWhile (fun c => !isAuthTerm special c)
      match parseHostPort auth with
      | none => none
      | some host =>
        let psh := splitPSH r2
        some { protocol := proto, hostname := host, pathname := psh.1,
               search := psh.2.1, hash := psh.2.2 }
    | _ =>
      let psh := splitPSH rest
      some { protocol := proto, hostname := [], pathname := psh.1,
             search := psh.2.1, hash := psh.2.2 }

/-- Characters of `l` up to and including its last `/` (used for relative
resolution against a base path). -/
def upToLastSlash (l : List Char) : List Char :=
  (l.reverse.dropWhile (fun c => !(c = '/' : Bool))).reverse

/-- Model of `new URL(raw, base)`: parses `raw` absolutely when it carries a
scheme, otherwise resolves it against `base` (protocol-relative, rooted,
query-only, fragment-only and path-merge forms). Returns `none` where the
constructor throws. -/
def parseURL (l : List Char) (base : Option (List Char)) : Option URLRec :=
  match splitScheme l with
  | some st => parseAbs (st.1.map lowerChar) st.2
  | none =>
    match base with
    | none => none
    | some b =>
      match splitScheme b with
      | none => none
      | some bst =>
        match parseAbs (bst.1.map lowerChar) bst.2 with
        | none => none
        | some bu =>
          match l with
          | [] => some { bu with hash := [] }
          | '/' :: '/' :: _ => parseAbs bu.protocol.dropLast l
          | '/' :: _ =>
            let psh := splitPSH l
            some { bu with pathname := pathFix (specialSchemes.contains bu.protocol.dropLast) psh.1,
                           search := psh.2.1, hash := psh.2.2 }
          | '?' :: _ =>
            let psh := splitPSH l
            some { bu with search := psh.2.1, hash := psh.2.2 }
          | '#' :: _ => some { bu with hash := l }
          | _ =>
            let psh := splitPSH l
            some { bu with pathname := pathFix (specialSchemes.contains bu.protocol.dropLast)
                             (upToLastSlash bu.pathname ++ psh.1),
                           search := psh.2.1, hash := psh.2.2 }

/-- Model of `new URL(raw, base?)` on strings. -/
def jsURL (raw : String) (base : Option String) : Option URLRec :=
  parseURL raw.toList (base.map String.toList)

/-- Removal of trailing slashes, as the source regex `/\/+$/` does. -/
def dropTrailingSlashes (l : List Char) : List Char :=
  (l.reverse.dropWhile (fun c => (c = '/' : Bool))).reverse

/-- The path part used by `normalizeUrl`: trailing slashes removed, an
empty result replaced by a single slash. -/
def normPath (l : List Char) : List Char :=
  let p := dropTrailingSlashes l
  if p = [] then ['/'] else p

/-- Serialization used by `normalizeUrl`. -/
def renderNorm (u : URLRec) : List Char :=
  u.protocol ++ '/' :: '/' :: (u.hostname ++ normPath u.pathname)

/-- Embedding of `normalizeUrl` from `crawler.ts`: parse, drop hash and
query, collapse trailing slashes, and serialize protocol, hostname and
path; `none` models the `null` return on parse failure. -/
def normalizeUrl (raw : String) (base : String) : Option String :=
  (jsURL raw (some base)).map (fun u => String.mk (renderNorm u))

/-- Embedding of the analyzer helper `normalizeForComparison`: lowercased
hostname plus trailing-slash-collapsed path, the whole URL lowercased when
parsing fails. -/
def normalizeForComparison (url : String) : String :=
  match jsURL url none with
  | some u => String.mk ((u.hostname ++ normPath u.pathname).map lowerChar)
  | none => String.mk (url.toList.map lowerChar)

/-- Hostname of a URL string, as read by `new URL(url).hostname`. -/
def urlHostname (s : String) : Option String :=
  (jsURL s none).map (fun u => String.mk u.hostname)

/-- A JavaScript runtime value as produced by `JSON.parse` (plus `undef`
for the value of a missing property). Numbers are modelled as integers. -/
inductive JValue where
  | undefined : JValue
  | null : JValue
  | bool (b : Bool) : JValue
  | num (n : Int) : JValue
  | str (s : String) : JValue
  | arr (elems : List JValue) : JValue
  | obj (fields : List (String × JValue)) : JValue
deriving Repr

/-- JS truthiness of a runtime value. -/
def truthy : JValue → Bool
  | .undefined => false
  | .null => false
  | .bool b => b
  | .num n => !(n = 0 : Bool)
  | .str s => !(s = "" : Bool)
  | .arr _ => true
  | .obj _ => true

/-- Property access `v[k]` on a JS value: `undef` on a missing key or a
non-object receiver (access on `null`/`undef` throws and is handled at the
call sites that model the surrounding `try`). -/
def jGet (v : JValue) (k : String) : JValue :=
  match v with
  | .obj fields =>
    match fields.find? (fun kv => kv.1 = k) with
    | some kv => kv.2
    | none => .undefined
  | _ => .undefined

/-- Severity levels of the analyzer issues. -/
inductive Severity where
  | critical
  | warning
  | info
deriving Repr, DecidableEq

/-- An on-page issue recorded by the crawler during extraction. -/
structure PageIssue where
  severity : String
  title : String
  description : String
deriving Repr

/-- Heading texts per level, as extracted by the crawler. -/
structure Headings where
  h1 : List String
  h2 : List String
  h3 : List String
  h4 : List String
  h5 : List String
  h6 : List String
deriving Repr

/-- An image with its `src` and `alt` attributes. -/
structure ImageTag where
  src : String
  alt : String
deriving Repr

/-- Embedding of the `CrawledPage` interface from `crawler.ts`. The extra
field `_discoveredInternalUrls` models the dynamic property the analyzer
reads through `(page as any)._discoveredInternalUrls`; it is not part of
the interface and pages built by the crawler leave it `none`
(i.e. `undefined`). -/
structure CrawledPage where
  url : String
  title : String
  metaDescription : String
  headings : Headings
  wordCount : Nat
  internalLinks : Nat
  externalLinks : Nat
  images : List ImageTag
  canonical : Option String
  schemaScripts : List JValue
  issues : List PageIssue
  _discoveredInternalUrls : Option (List String)
deriving Repr

/-- Embedding of `CrawlResult` from `crawler.ts`. -/
structure CrawlResult where
  domain : String
  pagesCrawled : Nat
  pages : List CrawledPage
  errors : List String
deriving Repr

/-- Embedding of `SeoIssue` from the analyzer module. -/
structure SeoIssue where
  issueType : String
  severity : Severity
  explanation : String
  recommendedFix : String
  pageUrl : Option String
deriving Repr, DecidableEq

/-- Aggregate counts attached to an analysis result. -/
structure AnalysisMeta where
  pagesAnalyzed : Nat
  totalIssues : Nat
  critical : Nat
  warnings : Nat
  info : Nat
deriving Repr, DecidableEq

/-- Embedding of `RuleAnalysisResult` from the analyzer module. -/
structure RuleAnalysisResult where
  issues : List SeoIssue
  meta : AnalysisMeta
deriving Repr

/-- Wraps a string in double quotes, as the template literals do. -/
def quoteStr (s : String) : String :=
  "\"" ++ s ++ "\""

/-- Model of `String.prototype.trim`: whitespace stripped from both ends
(kept kernel-computable by working on the character list). -/
def jsTrim (s : String) : String :=
  String.mk (((s.toList.dropWhile Char.isWhitespace).reverse.dropWhile Char.isWhitespace).reverse)

/-- Splits a character list on a separator character, as the JS
`String.prototype.split` with a one-character separator. -/
def splitOnChar (c : Char) : List Char → List (List Char)
  | [] => [[]]
  | x :: xs =>
    if x = c then [] :: splitOnChar c xs
    else
      match splitOnChar c xs with
      | [] => [[x]]
      | y :: ys => (x :: y) :: ys

/-- Marker string of the orphan-page issue type. -/
def orphanType : String := "orphan_page"

/-- Embedding of `checkMissingMetaDescription`: the list of issues the
check pushes for one page. -/
def checkMissingMetaDescription (page : CrawledPage) : List SeoIssue :=
  if page.metaDescription = "" ∨ (jsTrim page.metaDescription).length = 0 then
    [{ issueType := "missing_meta_description", severity := .critical,
       explanation := "The page " ++ quoteStr page.url ++ " has no meta description. Search engines display the meta description in search results, and its absence reduces click-through rates.",
       recommendedFix := "Add a <meta name=\"description\" content=\"...\"> tag with a concise summary (120-160 characters) of the page content.",
       pageUrl := some page.url }]
  else []

/-- Embedding of `checkMissingH1`. -/
def checkMissingH1 (page : CrawledPage) : List SeoIssue :=
  if page.headings.h1.length = 0 then
    [{ issueType := "missing_h1", severity := .critical,
       explanation := "The page " ++ quoteStr page.url ++ " has no H1 heading. The H1 tag is a strong ranking signal that tells search engines the primary topic of the page.",
       recommendedFix := "Add a single, descriptive <h1> tag that clearly communicates the main topic of the page. Place it near the top of the visible content.",
       pageUrl := some page.url }]
  else []

/-- Embedding of `checkMultipleH1`. -/
def checkMultipleH1 (page : CrawledPage) : List SeoIssue :=
  if page.headings.h1.length > 1 then
    [{ issueType := "multiple_h1", severity := .warning,
       explanation := "The page " ++ quoteStr page.url ++ " has " ++ toString page.headings.h1.length ++ " H1 tags (" ++ String.intercalate (", ") (page.headings.h1.map quoteStr) ++ "). Multiple H1 tags dilute the primary topic signal for search engines.",
       recommendedFix := "Keep only one H1 per page. Convert the extra H1 tags to H2 or lower-level headings that support the main topic.",
       pageUrl := some page.url }]
  else []

/-- Embedding of `checkThinContent`. -/
def checkThinContent (page : CrawledPage) : List SeoIssue :=
  if page.wordCount < 300 then
    [{ issueType := "thin_content", severity := .warning,
       explanation := "The page " ++ quoteStr page.url ++ " has only " ++ toString page.wordCount ++ " words. Pages with fewer than 300 words are considered thin content by search engines and are less likely to rank.",
       recommendedFix := "Expand the page content to at least 300 words with relevant, high-quality information. If the page serves a utility purpose (e.g., contact form), consider adding supporting text or FAQ sections.",
       pageUrl := some page.url }]
  else []

/-- Embedding of `checkMissingAltTags`. -/
def checkMissingAltTags (page : CrawledPage) : List SeoIssue :=
  let missing := page.images.filter (fun img => img.alt = "" ∨ (jsTrim img.alt).length = 0)
  if missing.length > 0 then
    [{ issueType := "missing_alt_tags", severity := .warning,
       explanation := "The page " ++ quoteStr page.url ++ " has " ++ toString missing.length ++ " image(s) without alt text out of " ++ toString page.images.length ++ " total. Missing alt text hurts accessibility and prevents search engines from understanding image content.",
       recommendedFix := "Add descriptive alt attributes to every <img> tag. Each alt text should concisely describe the image content (e.g., alt=\"Team meeting in conference room\").",
       pageUrl := some page.url }]
  else []

/-- Embedding of `checkNoSchema`. -/
def checkNoSchema (page : CrawledPage) : List SeoIssue :=
  if page.schemaScripts.length = 0 then
    [{ issueType := "no_schema", severity := .info,
       explanation := "The page " ++ quoteStr page.url ++ " has no structured data (JSON-LD schema markup). Schema markup helps search engines understand page content and can enable rich snippets in search results.",
       recommendedFix := "Add JSON-LD structured data relevant to the page type. Common schemas include Organization, WebPage, Article, Product, FAQ, and BreadcrumbList. Use Google\x27s Structured Data Testing Tool to validate.",
       pageUrl := some page.url }]
  else []

/-- Insertion-ordered upsert into the title map, as `Map.set` behaves in
JS: an existing key keeps its position, a new key is appended. -/
def upsertTitle (m : List (String × List String)) (k : String) (v : String) : List (String × List String) :=
  match m with
  | [] => [(k, [v])]
  | kv :: rest =>
    if kv.1 = k then (kv.1, kv.2 ++ [v]) :: rest
    else kv :: upsertTitle rest k v

/-- Embedding of `checkDuplicateTitles`: builds the insertion-ordered map
from trimmed lowercased titles to URLs (skipping empty titles) and emits
one warning per title shared by more than one page. -/
def checkDuplicateTitles (pages : List CrawledPage) : List SeoIssue :=
  let titleMap := pages.foldl (fun m page =>
    let t := String.mk ((jsTrim page.title).toList.map lowerChar)
    if t = "" then m else upsertTitle m t page.url) []
  titleMap.foldl (fun acc kv =>
    if kv.2.length > 1 then
      acc ++ [{ issueType := "duplicate_titles", severity := .warning,
                explanation := toString kv.2.length ++ " pages share the identical title " ++ quoteStr kv.1 ++ ": " ++ String.intercalate (", ") kv.2 ++ ". Duplicate titles confuse search engines about which page to rank and reduce the unique signal of each page.",
                recommendedFix := "Give each page a unique, descriptive title that accurately reflects its specific content. Include primary keywords and differentiate by topic or intent.",
                pageUrl := none }]
    else acc) []

/-- The orphan issue pushed by the zero-internal-links check. -/
def orphanIssueNoOutbound (url : String) : SeoIssue :=
  { issueType := orphanType, severity := .warning,
    explanation := "The page " ++ quoteStr url ++ " has zero internal links pointing outward and may also lack inbound links from other crawled pages. Orphan pages are difficult for search engines to discover and rank.",
    recommendedFix := "Add internal links from relevant pages to this page and from this page to other related content. Ensure the page is reachable from the site\x27s main navigation or sitemap.",
    pageUrl := some url }

/-- The orphan issue pushed by the not-linked-to check. -/
def orphanIssueNotLinked (url : String) : SeoIssue :=
  { issueType := orphanType, severity := .warning,
    explanation := "The page " ++ quoteStr url ++ " was not linked to by any other crawled page. It may be an orphan page that search engines struggle to find.",
    recommendedFix := "Add internal links from your key pages to this page. Include it in navigation menus, sitemaps, or contextual link sections.",
    pageUrl := some url }

/-- Appends a string to a JS `Set`-like list if not already present. -/
def insertUniq (s : List String) (x : String) : List String :=
  if x ∈ s then s else s ++ [x]

/-- The first loop of `checkOrphanPages`: flags pages with zero internal
links whose url differs from the first page's url `fu`. -/
def orphanLoop1 (fu : String) (pages : List CrawledPage) (issues : List SeoIssue) : List SeoIssue :=
  pages.foldl (fun acc page =>
    if page.internalLinks = 0 ∧ page.url ≠ fu then
      acc ++ [orphanIssueNoOutbound page.url]
    else acc) issues

/-- The `linkedToUrls` set of `checkOrphanPages`: the union of the pages'
discovered internal urls, normalized (a dynamic field crawler pages do not
set). -/
def linkedUnion (pages : List CrawledPage) : List String :=
  pages.foldl (fun s page =>
    match page._discoveredInternalUrls with
    | none => s
    | some us => us.foldl (fun t u => insertUniq t (normalizeForComparison u)) s) []

/-- The second loop of `checkOrphanPages`: flags not-linked-to pages
unless an orphan issue for the same url is already present. -/
def orphanLoop2 (linked : List String) (pages : List CrawledPage) (issues : List SeoIssue) : List SeoIssue :=
  pages.foldl (fun acc page =>
    if normalizeForComparison page.url ∈ linked then acc
    else if acc.any (fun i => i.issueType = orphanType ∧ i.pageUrl = some page.url) then acc
    else acc ++ [orphanIssueNotLinked page.url]) issues

/-- Embedding of `checkOrphanPages`, which mutates the shared issue array:
takes the issues accumulated so far and returns the extended array. The
second loop only runs when the discovered-url union is non-empty, and only
over the pages beyond the first. -/
def checkOrphanPages (pages : List CrawledPage) (issues : List SeoIssue) : List SeoIssue :=
  if pages.length < 2 then issues
  else
    let firstUrl := (pages.head?.map CrawledPage.url).getD ""
    let issues1 := orphanLoop1 firstUrl pages issues
    let linkedToUrls := linkedUnion pages
    if linkedToUrls.length > 0 then orphanLoop2 linkedToUrls (pages.drop 1) issues1
    else issues1

/-- The six per-page checks in the order `analyzeRules` runs them. -/
def pageChecks (page : CrawledPage) : List SeoIssue :=
  checkMissingMetaDescription page ++ checkMissingH1 page ++ checkMultipleH1 page ++
    checkThinContent page ++ checkMissingAltTags page ++ checkNoSchema page

/-- Embedding of `analyzeRules`: per-page checks, then the two site-wide
checks, then the aggregate counts. -/
def analyzeRules (crawl : CrawlResult) : RuleAnalysisResult :=
  let perPage := crawl.pages.foldl (fun acc p => acc ++ pageChecks p) []
  let withDup := perPage ++ checkDuplicateTitles crawl.pages
  let issues := checkOrphanPages crawl.pages withDup
  { issues := issues,
    meta := { pagesAnalyzed := crawl.pages.length,
              totalIssues := issues.length,
              critical := (issues.filter (fun i => i.severity = Severity.critical)).length,
              warnings := (issues.filter (fun i => i.severity = Severity.warning)).length,
              info := (issues.filter (fun i => i.severity = Severity.info)).length } }

/-- Embedding of the `AiFix` interface. The TS interface declares string
fields, but the construction site assigns whatever truthy value the parsed
completion response held, so the runtime field values are modelled as
`JValue`. -/
structure AiFix where
  pageUrl : String
  optimizedTitle : JValue
  optimizedMetaDescription : JValue
  improvedH1 : JValue
  jsonLdSchema : JValue
  suggestedInternalLinkingText : JValue
deriving Repr

/-- Embedding of `AiFixerResult`. -/
structure AiFixerResult where
  fixes : List AiFix
  totalFixesGenerated : Nat
deriving Repr

/-- Retry bound of the AI fixer (`MAX_RETRIES`). -/
def MAX_RETRIES : Nat := 2

/-- JS `a || b` on strings. -/
def jsOrStr (a b : String) : String :=
  if a = "" then b else a

/-- JS `a || b` on runtime values. -/
def jsOr (a b : JValue) : JValue :=
  if truthy a then a else b

/-- String form of a severity, as interpolated into the prompt. -/
def severityStr : Severity → String
  | .critical => "critical"
  | .warning => "warning"
  | .info => "info"

/-- Embedding of `buildPrompt` from `aiFixer.ts`. -/
def buildPrompt (page : CrawledPage) (issues : List SeoIssue) : String :=
  let comma := ", "
  let pageIssues := String.intercalate "\n"
    ((issues.filter (fun i => i.pageUrl = none ∨ i.pageUrl = some "" ∨ i.pageUrl = some page.url)).map
      (fun i => "- [" ++ severityStr i.severity ++ "] " ++ i.issueType ++ ": " ++ i.explanation))
  "You are an expert SEO consultant. Analyze this page and generate optimized SEO fixes.\n\n" ++
  "PAGE DATA:\n" ++
  "- URL: " ++ page.url ++ "\n" ++
  "- Current Title: " ++ jsOrStr page.title ("(missing)") ++ "\n" ++
  "- Current Meta Description: " ++ jsOrStr page.metaDescription ("(missing)") ++ "\n" ++
  "- Current H1: " ++ jsOrStr (String.intercalate comma page.headings.h1) ("(missing)") ++ "\n" ++
  "- Word Count: " ++ toString page.wordCount ++ "\n" ++
  "- Internal Links: " ++ toString page.internalLinks ++ "\n" ++
  "- External Links: " ++ toString page.externalLinks ++ "\n" ++
  "- Images: " ++ toString page.images.length ++ " (" ++ toString (page.images.filter (fun i => i.alt = "")).length ++ " missing alt)\n" ++
  "- Schema Markup: " ++ (if page.schemaScripts.length > 0 then "present" else "none") ++ "\n" ++
  "- Canonical: " ++ (match page.canonical with
    | some c => jsOrStr c ("(not set)")
    | none => "(not set)") ++ "\n" ++
  "- H2 Tags: " ++ jsOrStr (String.intercalate comma (page.headings.h2.take 5)) ("(none)") ++ "\n\n" ++
  "DETECTED ISSUES:\n" ++
  jsOrStr pageIssues ("No specific issues detected.") ++ "\n\n" ++
  "Generate fixes as a JSON object with this exact structure:\n" ++
  "\x7b\n" ++
  "  \"optimizedTitle\": \"<SEO-optimized title, 50-60 chars, include primary keyword>\",\n" ++
  "  \"optimizedMetaDescription\": \"<compelling meta description, 120-160 chars, include call to action>\",\n" ++
  "  \"improvedH1\": \"<clear, keyword-rich H1 heading>\",\n" ++
  "  \"jsonLdSchema\": \x7b <valid JSON-LD WebPage schema object with @context, @type, name, description, url> \x7d,\n" ++
  "  \"suggestedInternalLinkingText\": \"<2-3 sentences of anchor text suggestions for linking to/from this page>\"\n" ++
  "\x7d\n\n" ++
  "Return ONLY valid JSON. Base suggestions on the actual page data above."

/-- Replaces the first occurrence of `pat` in `l` by `rep`, as the JS
`String.prototype.replace` with a string pattern does. -/
def replFirst (pat rep : List Char) : List Char → List Char
  | [] => []
  | c :: rest =>
    if pat.isPrefixOf (c :: rest) then rep ++ (c :: rest).drop pat.length
    else c :: replFirst pat rep rest

/-- The `domain` binding of `fallbackFix`: the page hostname with a first
`www.` removed, or `website` when the url does not parse. -/
def fallbackDomain (page : CrawledPage) : String :=
  let wwwDot := "www."
  match jsURL page.url none with
  | some u => String.mk (replFirst wwwDot.toList [] u.hostname)
  | none => "website"

/-- The `title` binding of `fallbackFix`. -/
def fallbackTitle (page : CrawledPage) : String :=
  jsOrStr page.title (fallbackDomain page ++ " - Homepage")

/-- The `desc` binding of `fallbackFix`. -/
def fallbackDescr (page : CrawledPage) : String :=
  jsOrStr page.metaDescription
    ("Visit " ++ fallbackDomain page ++ " for more information about our products and services.")

/-- The JS `s.length > limit ? s.slice(0, cut) + "..." : s` truncation,
with the slice modelled by a character-list take. -/
def truncateJs (s : String) (limit cut : Nat) : String :=
  if s.length > limit then String.mk (s.toList.take cut) ++ "..." else s

/-- Embedding of `fallbackFix` from `aiFixer.ts`: the deterministic fix
derived from the page itself, with ≤60/≤160-char truncation. -/
def fallbackFix (page : CrawledPage) : AiFix :=
  let domain := fallbackDomain page
  let title := fallbackTitle page
  let descr := fallbackDescr page
  let h1 := jsOrStr ((page.headings.h1.head?).getD "") ("Welcome to " ++ domain)
  { pageUrl := page.url,
    optimizedTitle := .str (truncateJs title 60 57),
    optimizedMetaDescription := .str (truncateJs descr 160 157),
    improvedH1 := .str h1,
    jsonLdSchema := .obj [("@context", .str "https://schema.org"), ("@type", .str "WebPage"),
                          ("name", .str title), ("description", .str descr), ("url", .str page.url)],
    suggestedInternalLinkingText := .str ("Learn more about " ++ domain ++ ". Explore our content and resources. Visit related pages for additional information.") }

/-- Outcome of one call to the completion capability: either a response
content (possibly `null`/`undefined`), or a thrown error carrying an
optional numeric status. -/
inductive CallOutcome where
  | ok (content : Option String) : CallOutcome
  | err (status : Option Nat) : CallOutcome

/-- The string taken from a successful response:
`response.choices[0]?.message?.content || "{}"`. -/
def contentOrBraces (c : Option String) : String :=
  jsOrStr (c.getD "") ("\x7b\x7d")

/-- The retry loop of `callOpenAIWithRetry` over attempts
`attempt, attempt+1, …`: any error with retries remaining leads to another
attempt (a 429 status only changes the sleep delay, which is not
modelled); the final error is rethrown. `fuel` counts the remaining loop
iterations, and its exhaustion returns the unreachable `"{}"` after the
loop. -/
def callLoop (call : Nat → CallOutcome) (retries : Nat) : Nat → Nat → Except (Option Nat) String
  | 0, _ => .ok ("\x7b\x7d")
  | fuel + 1, attempt =>
    match call attempt with
    | .ok c => .ok (contentOrBraces c)
    | .err status =>
      if attempt < retries then callLoop call retries fuel (attempt + 1)
      else .error status

/-- Embedding of `callOpenAIWithRetry`: runs the attempt loop from attempt
0 with `retries + 1` iterations available. -/
def callOpenAIWithRetry (call : Nat → CallOutcome) (retries : Nat) : Except (Option Nat) String :=
  callLoop call retries (retries + 1) 0

/-- The fix object pushed on the success path of `generateFixes`, with the
per-field `parsed.x || fallbackFix(page).x` defaulting. -/
def mkFixFromParsed (page : CrawledPage) (parsed : JValue) : AiFix :=
  { pageUrl := page.url,
    optimizedTitle := jsOr (jGet parsed ("optimizedTitle")) (fallbackFix page).optimizedTitle,
    optimizedMetaDescription := jsOr (jGet parsed ("optimizedMetaDescription")) (fallbackFix page).optimizedMetaDescription,
    improvedH1 := jsOr (jGet parsed ("improvedH1")) (fallbackFix page).improvedH1,
    jsonLdSchema := jsOr (jGet parsed ("jsonLdSchema")) (fallbackFix page).jsonLdSchema,
    suggestedInternalLinkingText := jsOr (jGet parsed ("suggestedInternalLinkingText")) (fallbackFix page).suggestedInternalLinkingText }

/-- The fix produced for one page: the `try` body of the loop in
`generateFixes`, with every throwing path (`callOpenAIWithRetry` failing,
`JSON.parse` throwing, property access on a `null` parse result) caught
and replaced by `fallbackFix`. `call` is the completion capability keyed
by prompt and attempt; `parse` models `JSON.parse`. -/
def fixForPage (call : String → Nat → CallOutcome) (parse : String → Option JValue)
    (issues : List SeoIssue) (page : CrawledPage) : AiFix :=
  match callOpenAIWithRetry (call (buildPrompt page issues)) MAX_RETRIES with
  | .error _ => fallbackFix page
  | .ok raw =>
    match parse raw with
    | none => fallbackFix page
    | some .null => fallbackFix page
    | some parsed => mkFixFromParsed page parsed

/-- Embedding of `generateFixes`: one fix per page, sequentially. -/
def generateFixes (call : String → Nat → CallOutcome) (parse : String → Option JValue)
    (pages : List CrawledPage) (issues : List SeoIssue) : AiFixerResult :=
  let fixes := pages.map (fixForPage call parse issues)
  { fixes := fixes, totalFixesGenerated := fixes.length }

/-- The four score categories. -/
inductive ScoreCat where
  | meta
  | content
  | performance
  | technical
deriving Repr, DecidableEq

/-- The five scores returned by `computeScores`. -/
structure Scores where
  overall : Int
  meta : Int
  content : Int
  performance : Int
  technical : Int
deriving Repr, DecidableEq

/-- The fixed penalty table of `computeScores`: category and amount per
issue type, `none` for unpenalized issue types. -/
def penaltyOf (t : String) : Option (ScoreCat × Int) :=
  if t = "missing_meta_description" then some (.meta, 25)
  else if t = "missing_h1" then some (.content, 20)
  else if t = "multiple_h1" then some (.content, 10)
  else if t = "thin_content" then some (.content, 15)
  else if t = "duplicate_titles" then some (.meta, 15)
  else if t = "missing_alt_tags" then some (.performance, 10)
  else if t = "no_schema" then some (.technical, 10)
  else if t = orphanType then some (.technical, 10)
  else none

/-- Mutable category-score record of `computeScores`. -/
structure CatScores where
  meta : Int
  content : Int
  performance : Int
  technical : Int
deriving Repr, DecidableEq

/-- One loop iteration of `computeScores`:
`categoryScores[cat] = Math.max(0, categoryScores[cat] - amount)`. -/
def applyPenalty (s : CatScores) (issue : SeoIssue) : CatScores :=
  match penaltyOf issue.issueType with
  | none => s
  | some (.meta, a) => { s with meta := max 0 (s.meta - a) }
  | some (.content, a) => { s with content := max 0 (s.content - a) }
  | some (.performance, a) => { s with performance := max 0 (s.performance - a) }
  | some (.technical, a) => { s with technical := max 0 (s.technical - a) }

/-- JS `Math.round`: half-up rounding, `⌊x + 1/2⌋`. -/
def jsRound (q : ℚ) : Int :=
  ⌊q + 1 / 2⌋

/-- Embedding of `computeScores` from the worker module: every category
starts at 100, each issue subtracts its penalty clamped at 0, and the
overall score is the rounded mean of the four categories. The unused
`pages` parameter is kept from the source signature. -/
def computeScores (_pages : List CrawledPage) (issues : List SeoIssue) : Scores :=
  let init : CatScores := { meta := 100, content := 100, performance := 100, technical := 100 }
  let s := issues.foldl applyPenalty init
  { overall := jsRound (((s.meta + s.content + s.performance + s.technical : Int) : ℚ) / 4),
    meta := s.meta, content := s.content, performance := s.performance, technical := s.technical }

/-- The data the page-rendering capability extracts from one fetched page:
everything in `CrawledPage` except the url, which `extractPageData` sets
to the url being crawled. -/
structure PageData where
  title : String
  metaDescription : String
  headings : Headings
  wordCount : Nat
  internalLinks : Nat
  externalLinks : Nat
  images : List ImageTag
  canonical : Option String
  schemaScripts : List JValue
  issues : List PageIssue
deriving Repr

/-- The crawled page built from one fetch: url as crawled, and no
`_discoveredInternalUrls` dynamic field. -/
def toCrawledPage (url : String) (d : PageData) : CrawledPage :=
  { url := url, title := d.title, metaDescription := d.metaDescription,
    headings := d.headings, wordCount := d.wordCount,
    internalLinks := d.internalLinks, externalLinks := d.externalLinks,
    images := d.images, canonical := d.canonical,
    schemaScripts := d.schemaScripts, issues := d.issues,
    _discoveredInternalUrls := none }

/-- Page cap of the crawler (`MAX_PAGES`). -/
def MAX_PAGES : Nat := 20

/-- The asset-extension denylist of the crawl loop. -/
def assetExts : List String :=
  ["pdf", "jpg", "jpeg", "png", "gif", "svg", "webp", "mp4", "mp3", "zip", "css", "js", "woff", "woff2", "ttf", "eot"]

/-- The extension check of the crawl loop:
`url.split("?")[0].split("/").pop()` and, when it contains a dot, its
lowercased last dot-component. -/
def extOf (url : String) : Option String :=
  let pathEnd := (splitOnChar '/' ((splitOnChar '?' url.toList).headD [])).getLastD []
  if pathEnd.contains '.' then
    some (String.mk (((splitOnChar '.' pathEnd).getLastD []).map lowerChar))
  else none

/-- Mutable state of the crawl loop: the FIFO frontier, the visited and
enqueued sets (insertion-ordered lists), collected pages and errors. -/
structure CrawlSt where
  queue : List String
  visited : List String
  enqueued : List String
  pages : List CrawledPage
  errors : List String
deriving Repr

/-- Embedding of the `while` loop of `crawlDomain`. `fetch` is the
page-rendering capability, modelling the net outcome of
`crawlPageWithRetry` for a url (`none` data = all retries exhausted) plus
the discovered links; `robots` models the parsed robots.txt check
(`none` = unavailable, fail-open). `fuel` bounds the number of loop
iterations; every theorem below holds for every fuel. -/
def crawlLoop (fetch : String → Option PageData × List String)
    (robots : Option (String → Bool)) (startHost : String) (baseDomain : String) :
    Nat → CrawlSt → CrawlSt
  | 0, st => st
  | fuel + 1, st =>
    match st.queue with
    | [] => st
    | url :: rest =>
      if st.pages.length < MAX_PAGES then
        if url ∈ st.visited then
          crawlLoop fetch robots startHost baseDomain fuel { st with queue := rest }
        else
          let st1 := { st with queue := rest, visited := st.visited ++ [url] }
          match urlHostname url with
          | none => crawlLoop fetch robots startHost baseDomain fuel st1
          | some host =>
            if host ≠ startHost then
              crawlLoop fetch robots startHost baseDomain fuel st1
            else if (extOf url).elim false (fun e => decide (e ∈ assetExts)) then
              crawlLoop fetch robots startHost baseDomain fuel st1
            else if robots.elim false (fun allowed => !allowed url) then
              crawlLoop fetch robots startHost baseDomain fuel
                { st1 with errors := st1.errors ++ ["Blocked by robots.txt: " ++ url] }
            else
              match fetch url with
              | (some d, links) =>
                let st2 := links.foldl (fun s link =>
                  match normalizeUrl link baseDomain with
                  | some norm =>
                    if norm ∉ s.visited ∧ norm ∉ s.enqueued then
                      { s with enqueued := s.enqueued ++ [norm], queue := s.queue ++ [norm] }
                    else s
                  | none => s)
                  { st1 with pages := st1.pages ++ [toCrawledPage url d] }
                crawlLoop fetch robots startHost baseDomain fuel st2
              | (none, _) =>
                crawlLoop fetch robots startHost baseDomain fuel
                  { st1 with errors := st1.errors ++ ["Failed to crawl: " ++ url] }
      else st

/-- Embedding of `crawlDomain`: start-url validation, browser launch
(`launchErr` is the launch-failure oracle), seeding the frontier with the
normalized start url, and the bounded traversal. -/
def crawlDomain (fetch : String → Option PageData × List String)
    (robots : Option (String → Bool)) (launchErr : Option String) (fuel : Nat)
    (startUrl : String) : CrawlResult :=
  match jsURL startUrl none with
  | none =>
    { domain := startUrl, pagesCrawled := 0, pages := [],
      errors := ["Invalid URL: " ++ startUrl] }
  | some parsedStart =>
    let baseDomain := String.mk (parsedStart.protocol ++ '/' :: '/' :: parsedStart.hostname)
    let domain := String.mk parsedStart.hostname
    match launchErr with
    | some msg =>
      { domain := domain, pagesCrawled := 0, pages := [],
        errors := ["Browser launch failed: " ++ msg] }
    | none =>
      let init : CrawlSt :=
        match normalizeUrl startUrl baseDomain with
        | some n => { queue := [n], visited := [], enqueued := [n], pages := [], errors := [] }
        | none => { queue := [], visited := [], enqueued := [], pages := [], errors := [] }
      let fin := crawlLoop fetch robots domain baseDomain fuel init
      { domain := domain, pagesCrawled := fin.pages.length, pages := fin.pages,
        errors := fin.errors }

/-- Embedding of `AuditJob` from `queue.ts`. -/
structure AuditJob where
  auditId : Nat
  userId : String
  url : String
  domain : String
deriving Repr, DecidableEq

/-- The progress stages of `JobProgress`. -/
inductive Stage where
  | queued
  | crawling
  | analyzing
  | fixing
  | saving
  | done
  | error
deriving Repr, DecidableEq

/-- A stage is terminal when it is `done` or `error`. -/
def Stage.terminal : Stage → Prop
  | .done => True
  | .error => True
  | _ => False

instance : DecidablePred Stage.terminal := by
  intro s
  cases s <;> simp [Stage.terminal] <;> infer_instance

/-- Concurrency limit of the worker pool (`CONCURRENCY`). -/
def CONCURRENCY : Nat := 2

/-- The progress table `activeJobs`, keyed by audit id (insertion-ordered
upsert, as `Map.set`). -/
def setProgress (m : List (Nat × Stage)) (k : Nat) (v : Stage) : List (Nat × Stage) :=
  match m with
  | [] => [(k, v)]
  | kv :: rest => if kv.1 = k then (k, v) :: rest else kv :: setProgress rest k v

/-- Lookup in the progress table. -/
def getProgress (m : List (Nat × Stage)) (k : Nat) : Option Stage :=
  match m with
  | [] => none
  | kv :: rest => if kv.1 = k then some kv.2 else getProgress rest k

/-- State of the worker pool: the FIFO job queue, the jobs whose
`processJob` promise is in flight (`runningCount = running.length`), and
the progress table. -/
structure PoolSt where
  queue : List AuditJob
  running : List AuditJob
  progress : List (Nat × Stage)
deriving Repr

/-- Interleaved execution of the worker pool, as a step relation.
`outcome` is the oracle saying whether a job's pipeline succeeds.
`start` models one iteration of the `while` loop in `tick`: with a free
slot, the head of the queue is dequeued, `runningCount` incremented and
`processJob` begun (whose first progress write is the `crawling` stage);
`finish` models a `processJob` promise settling: its `try`/`catch` always
writes a terminal stage (`done` on success, `error` on failure) before the
`finally` decrements `runningCount` and re-runs `tick`. -/
inductive PoolStep (outcome : Nat → Bool) : PoolSt → PoolSt → Prop where
  | start (j : AuditJob) (rest : List AuditJob) (run : List AuditJob)
      (prog : List (Nat × Stage)) :
      run.length < CONCURRENCY →
      PoolStep outcome ⟨j :: rest, run, prog⟩
        ⟨rest, j :: run, setProgress prog j.auditId .crawling⟩
  | finish (j : AuditJob) (pre post : List AuditJob) (q : List AuditJob)
      (prog : List (Nat × Stage)) :
      PoolStep outcome ⟨q, pre ++ j :: post, prog⟩
        ⟨q, pre ++ post,
         setProgress prog j.auditId (if outcome j.auditId then .done else .error)⟩

/-- Reachability under the pool step relation. -/
def PoolReach (outcome : Nat → Bool) : PoolSt → PoolSt → Prop :=
  Relation.ReflTransGen (PoolStep outcome)

/-- State after `enqueueAudit` ran for each job in order: every job got a
`queued` progress entry and was appended to the FIFO; nothing runs yet. -/
def initPool (jobs : List AuditJob) : PoolSt :=
  { queue := jobs,
    running := [],
    progress := jobs.foldl (fun m j => setProgress m j.auditId .queued) [] }

/-- Variant that decreases at every pool step. -/
def poolMeasure (s : PoolSt) : Nat :=
  2 * s.queue.length + s.running.length

section Helpers

/-- Elements of a fold that only appends satisfy a predicate once the
accumulator does and every appended element does. -/
theorem foldl_pred {α β : Type} (P : β → Prop) (f : List β → α → List β)
    (hf : ∀ acc a i, i ∈ f acc a → i ∈ acc ∨ P i) :
    ∀ (l : List α) (acc : List β), (∀ i ∈ acc, P i) → ∀ i ∈ l.foldl f acc, P i := by
  intro l
  induction l with
  | nil => intro acc hacc i hi; exact hacc i hi
  | cons a l ih =>
    intro acc hacc i hi
    refine ih (f acc a) ?_ i hi
    intro j hj
    rcases hf acc a j hj with h | h
    · exact hacc j h
    · exact h

/-- The three severity counts partition any issue list. -/
theorem severity_partition (l : List SeoIssue) :
    (l.filter (fun i => i.severity = Severity.critical)).length
      + (l.filter (fun i => i.severity = Severity.warning)).length
      + (l.filter (fun i => i.severity = Severity.info)).length = l.length := by
  induction l with
  | nil => rfl
  | cons i rest ih =>
    simp only [List.filter_cons]
    cases h : i.severity <;> simp [h] <;> omega

end Helpers

/-- The fix built for a page carries that page's url, on every path. -/
theorem fixForPage_pageUrl (call : String → Nat → CallOutcome)
    (parse : String → Option JValue) (issues : List SeoIssue) (page : CrawledPage) :
    (fixForPage call parse issues page).pageUrl = page.url := by
  unfold fixForPage
  split
  · rfl
  · split
    · rfl
    · rfl
    · rfl

/-- C1: for every list of crawled pages and issues and every behaviour of
the completion capability (`call`, including permanently failing calls)
and of `JSON.parse` (`parse`), `generateFixes` returns exactly one `AiFix`
per input page — the fix list has the length of the page list and pairs up
with the pages by url — and, being a total function, never throws. -/
theorem generateFixes_one_fix_per_page (call : String → Nat → CallOutcome)
    (parse : String → Option JValue) (pages : List CrawledPage) (issues : List SeoIssue) :
    (generateFixes call parse pages issues).fixes.length = pages.length ∧
    (generateFixes call parse pages issues).fixes.map AiFix.pageUrl = pages.map CrawledPage.url ∧
    (generateFixes call parse pages issues).totalFixesGenerated = pages.length := by
  refine ⟨by simp [generateFixes], ?_, by simp [generateFixes]⟩
  simp only [generateFixes, List.map_map]
  exact List.map_congr_left (fun p _ => fixForPage_pageUrl call parse issues p)

/-- C6: the analyzer's aggregate counts are consistent: `totalIssues` is
the length of the issue list, the three severity counts partition it, and
`pagesAnalyzed` is the number of input pages. (`analyzeRules` is a plain
function of its input, hence pure and deterministic.) -/
theorem analyzeRules_meta_consistent (crawl : CrawlResult) :
    (analyzeRules crawl).meta.totalIssues = (analyzeRules crawl).issues.length ∧
    (analyzeRules crawl).meta.critical + (analyzeRules crawl).meta.warnings
      + (analyzeRules crawl).meta.info = (analyzeRules crawl).issues.length ∧
    (analyzeRules crawl).meta.pagesAnalyzed = crawl.pages.length := by
  exact ⟨rfl, severity_partition _, rfl⟩

/-- C7: a start URL the `URL` constructor rejects makes `crawlDomain`
return immediately: zero pages, `pagesCrawled` 0, and exactly one error
entry naming the invalid URL. (The embedding is total, so no exception
escapes.) -/
theorem crawlDomain_invalid_url (fetch : String → Option PageData × List String)
    (robots : Option (String → Bool)) (launchErr : Option String) (fuel : Nat)
    (startUrl : String) (h : jsURL startUrl none = none) :
    crawlDomain fetch robots launchErr fuel startUrl =
      { domain := startUrl, pagesCrawled := 0, pages := [],
        errors := ["Invalid URL: " ++ startUrl] } := by
  unfold crawlDomain
  rw [h]

/-- Witness for C7 at a concrete malformed start URL. -/
theorem crawlDomain_invalid_url_witness :
    crawlDomain (fun _ => (none, [])) none none 5 ("not a url") =
      { domain := "not a url", pagesCrawled := 0, pages := [],
        errors := ["Invalid URL: not a url"] } :=
  crawlDomain_invalid_url (fun _ => (none, [])) none none 5 ("not a url") (by decide)

/-- Membership in a conditional singleton list forces equality. -/
theorem mem_ite_singleton {α : Type} {c : Prop} [Decidable c] {x i : α}
    (h : i ∈ if c then [x] else []) : i = x := by
  split at h <;> simp_all

/-- No per-page check emits an orphan-page issue. -/
theorem pageChecks_not_orphan (p : CrawledPage) :
    ∀ i ∈ pageChecks p, i.issueType ≠ orphanType := by
  intro i hi
  simp only [pageChecks, List.mem_append] at hi
  rcases hi with ((((h | h) | h) | h) | h) | h
  · simp only [checkMissingMetaDescription] at h
    cases mem_ite_singleton h
    simp [orphanType]
  · simp only [checkMissingH1] at h
    cases mem_ite_singleton h
    simp [orphanType]
  · simp only [checkMultipleH1] at h
    cases mem_ite_singleton h
    simp [orphanType]
  · simp only [checkThinContent] at h
    cases mem_ite_singleton h
    simp [orphanType]
  · simp only [checkMissingAltTags] at h
    cases mem_ite_singleton h
    simp [orphanType]
  · simp only [checkNoSchema] at h
    cases mem_ite_singleton h
    simp [orphanType]

/-- The duplicate-titles check never emits an orphan-page issue. -/
theorem dupTitles_not_orphan (pages : List CrawledPage) :
    ∀ i ∈ checkDuplicateTitles pages, i.issueType ≠ orphanType := by
  intro i hi
  simp only [checkDuplicateTitles] at hi
  refine foldl_pred (fun j => j.issueType ≠ orphanType) _ ?_ _ _ (by simp) i hi
  intro acc a j hj
  split at hj
  · rcases List.mem_append.mp hj with h | h
    · exact Or.inl h
    · right
      cases List.mem_singleton.mp h
      simp [orphanType]
  · exact Or.inl hj

/-- With fewer than two pages the orphan check adds nothing. -/
theorem checkOrphanPages_lt_two (pages : List CrawledPage) (issues : List SeoIssue)
    (h : pages.length < 2) : checkOrphanPages pages issues = issues := by
  unfold checkOrphanPages
  rw [if_pos h]

/-- C10: an analyzer input with fewer than two pages yields no
`orphan_page` issue at all, even when its single page has zero internal
links. -/
theorem analyzeRules_single_page_no_orphan (crawl : CrawlResult)
    (h : crawl.pages.length < 2) :
    ∀ i ∈ (analyzeRules crawl).issues, i.issueType ≠ orphanType := by
  intro i hi
  simp only [analyzeRules] at hi
  rw [checkOrphanPages_lt_two _ _ h] at hi
  rcases List.mem_append.mp hi with h1 | h1
  · refine foldl_pred (fun j => j.issueType ≠ orphanType) _ ?_ _ _ (by simp) i h1
    intro acc a j hj
    rcases List.mem_append.mp hj with h2 | h2
    · exact Or.inl h2
    · exact Or.inr (pageChecks_not_orphan a j h2)
  · exact dupTitles_not_orphan crawl.pages i h1

/-- A concrete page with zero internal links, used by witnesses. -/
def samplePage : CrawledPage :=
  { url := "https://example.com/", title := "", metaDescription := "",
    headings := { h1 := [], h2 := [], h3 := [], h4 := [], h5 := [], h6 := [] },
    wordCount := 0, internalLinks := 0, externalLinks := 1, images := [],
    canonical := none, schemaScripts := [], issues := [],
    _discoveredInternalUrls := none }

/-- A concrete single-page crawl result. -/
def singlePageCrawl : CrawlResult :=
  { domain := "example.com", pagesCrawled := 1, pages := [samplePage], errors := [] }

/-- Witness for C10 on a concrete single-page crawl whose page has zero
internal links. -/
theorem analyzeRules_single_page_no_orphan_witness :
    singlePageCrawl.pages.length < 2 ∧ samplePage.internalLinks = 0 ∧
      (∀ i ∈ (analyzeRules singlePageCrawl).issues, i.issueType ≠ orphanType) :=
  ⟨by decide, by decide, analyzeRules_single_page_no_orphan singlePageCrawl (by decide)⟩

/-- Selects one category from a `CatScores`. -/
def catSel : ScoreCat → CatScores → Int
  | .meta, s => s.meta
  | .content, s => s.content
  | .performance, s => s.performance
  | .technical, s => s.technical

/-- Penalty an issue contributes to one category, per the fixed table. -/
def catAmount (cat : ScoreCat) (i : SeoIssue) : Int :=
  match penaltyOf i.issueType with
  | some ca => if ca.1 = cat then ca.2 else 0
  | none => 0

/-- Spec-side formulation of a category's total penalty: the sum of the
per-issue-type penalties of the issues in that category. -/
def specCatPenalty (cat : ScoreCat) (issues : List SeoIssue) : Int :=
  (issues.map (catAmount cat)).sum

/-- Every entry of the penalty table is nonnegative. -/
theorem catAmount_nonneg (cat : ScoreCat) (i : SeoIssue) : 0 ≤ catAmount cat i := by
  unfold catAmount
  cases h : penaltyOf i.issueType with
  | none => simp
  | some ca =>
    have hnn : 0 ≤ ca.2 := by
      unfold penaltyOf at h
      repeat' split at h
      all_goals first
        | (injection h with h2; rw [← h2]; norm_num)
        | (exact absurd h (by simp))
    simp only [h]
    split
    · exact hnn
    · norm_num

/-- Total category penalties are nonnegative. -/
theorem specCatPenalty_nonneg (cat : ScoreCat) (issues : List SeoIssue) :
    0 ≤ specCatPenalty cat issues := by
  refine List.sum_nonneg ?_
  intro x hx
  rcases List.mem_map.mp hx with ⟨i, _, rfl⟩
  exact catAmount_nonneg cat i

/-- One `computeScores` loop iteration, per category. -/
theorem catSel_applyPenalty (cat : ScoreCat) (s : CatScores) (i : SeoIssue)
    (hs : 0 ≤ catSel cat s) :
    catSel cat (applyPenalty s i) = max 0 (catSel cat s - catAmount cat i) := by
  unfold applyPenalty catAmount
  cases h : penaltyOf i.issueType with
  | none => simp [h]; omega
  | some ca =>
    obtain ⟨c, a⟩ := ca
    cases c <;> cases cat <;> simp [h, catSel] at hs ⊢ <;> omega

/-- The clamped sequential subtraction of `computeScores` equals the
clamp of the total per-category penalty. -/
theorem catSel_fold (cat : ScoreCat) :
    ∀ (issues : List SeoIssue) (s : CatScores), 0 ≤ catSel cat s →
      catSel cat (issues.foldl applyPenalty s)
        = max 0 (catSel cat s - specCatPenalty cat issues) := by
  intro issues
  induction issues with
  | nil =>
    intro s hs
    simp [specCatPenalty]
    omega
  | cons i rest ih =>
    intro s hs
    have h1 := catSel_applyPenalty cat s i hs
    have hnn : 0 ≤ catSel cat (applyPenalty s i) := by
      rw [h1]; exact le_max_left 0 _
    rw [List.foldl_cons, ih _ hnn, h1]
    have ha := catAmount_nonneg cat i
    have hr := specCatPenalty_nonneg cat rest
    simp only [specCatPenalty, List.map_cons, List.sum_cons]
    have hr2 : 0 ≤ (rest.map (catAmount cat)).sum := hr
    omega

/-- An `SeoIssue` with a given issue type, used to state the concrete
scoring examples of the claim. -/
def plainIssue (t : String) : SeoIssue :=
  { issueType := t, severity := .warning, explanation := "", recommendedFix := "",
    pageUrl := none }

/-- C4: `computeScores` starts every category at 100, subtracts the fixed
penalty table clamped at 0 (sequential clamped subtraction equals the
clamp of the per-category total), and sets `overall` to the JS-rounded
mean of the four categories; an empty issue list gives five scores of 100,
and a single `missing_h1` issue gives content 80 and overall 95. -/
theorem computeScores_spec (pages pages2 pages3 : List CrawledPage) (issues : List SeoIssue) :
    (computeScores pages issues).meta = max 0 (100 - specCatPenalty .meta issues) ∧
    (computeScores pages issues).content = max 0 (100 - specCatPenalty .content issues) ∧
    (computeScores pages issues).performance = max 0 (100 - specCatPenalty .performance issues) ∧
    (computeScores pages issues).technical = max 0 (100 - specCatPenalty .technical issues) ∧
    (computeScores pages issues).overall =
      jsRound ((((computeScores pages issues).meta + (computeScores pages issues).content
        + (computeScores pages issues).performance
        + (computeScores pages issues).technical : Int) : ℚ) / 4) ∧
    computeScores pages2 [] =
      { overall := 100, meta := 100, content := 100, performance := 100, technical := 100 } ∧
    (computeScores pages3 [plainIssue ("missing_h1")]).content = 80 ∧
    (computeScores pages3 [plainIssue ("missing_h1")]).overall = 95 := by
  have hinit : ∀ cat : ScoreCat,
      catSel cat { meta := 100, content := 100, performance := 100, technical := 100 } = (100 : Int) := by
    intro cat
    cases cat <;> rfl
  have hfold : ∀ cat : ScoreCat,
      catSel cat (issues.foldl applyPenalty
        { meta := 100, content := 100, performance := 100, technical := 100 })
        = max 0 (100 - specCatPenalty cat issues) := by
    intro cat
    rw [catSel_fold cat issues _ (by rw [hinit]; norm_num), hinit]
  have hp : penaltyOf ("missing_h1") = some (.content, 20) := by decide
  refine ⟨hfold .meta, hfold .content, hfold .performance, hfold .technical, rfl, ?_, ?_, ?_⟩
  · have h100 : jsRound (((100 + 100 + 100 + 100 : Int) : ℚ) / 4) = 100 := by
      unfold jsRound
      rw [Int.floor_eq_iff]
      norm_num
    simp only [computeScores, List.foldl_nil]
    rw [show ((({ meta := 100, content := 100, performance := 100, technical := 100 } : CatScores).meta
      + ({ meta := 100, content := 100, performance := 100, technical := 100 } : CatScores).content
      + ({ meta := 100, content := 100, performance := 100, technical := 100 } : CatScores).performance
      + ({ meta := 100, content := 100, performance := 100, technical := 100 } : CatScores).technical : Int))
      = (100 + 100 + 100 + 100 : Int) from rfl, h100]
  · simp [computeScores, applyPenalty, plainIssue, hp]
  · have h95 : jsRound (((100 + 80 + 100 + 100 : Int) : ℚ) / 4) = 95 := by
      unfold jsRound
      rw [Int.floor_eq_iff]
      norm_num
    simp only [computeScores, List.foldl_cons, List.foldl_nil]
    rw [show (applyPenalty { meta := 100, content := 100, performance := 100, technical := 100 }
        (plainIssue ("missing_h1")))
      = { meta := 100, content := 80, performance := 100, technical := 100 } from by
        simp [applyPenalty, plainIssue, hp]]
    exact h95

/-- Field name of the optimized title in the completion response. -/
def fldTitle : String := "optimizedTitle"

/-- A completion capability whose calls always succeed with a fixed body. -/
def ceOkCall : String → Nat → CallOutcome :=
  fun _ _ => CallOutcome.ok (some "RAW")

/-- A parse oracle returning an object whose title field is a number
(present but wrong-typed). -/
def ceParseNum : String → Option JValue :=
  fun _ => some (JValue.obj [(fldTitle, JValue.num 42)])

/-- A parse oracle returning an object whose title field is the empty
string (present and well-typed). -/
def ceParseEmpty : String → Option JValue :=
  fun _ => some (JValue.obj [(fldTitle, JValue.str "")])

/-- C3 counterexample: the construction site uses JS truthiness, not a
typed decode. With a response whose `optimizedTitle` is the number 42
(present but wrong-typed) the produced fix carries 42 rather than the
fallback, and with a response whose `optimizedTitle` is the empty string
(present, well-typed) the produced fix carries the fallback rather than
the response value — both contradict the claim's field rule. -/
theorem aiFix_field_validation_counterexample :
    ∃ f g,
      (generateFixes ceOkCall ceParseNum [samplePage] []).fixes = [f] ∧
      f.optimizedTitle = JValue.num 42 ∧
      f.optimizedTitle ≠ (fallbackFix samplePage).optimizedTitle ∧
      (generateFixes ceOkCall ceParseEmpty [samplePage] []).fixes = [g] ∧
      g.optimizedTitle = (fallbackFix samplePage).optimizedTitle ∧
      g.optimizedTitle ≠ JValue.str "" := by
  have hfb : (fallbackFix samplePage).optimizedTitle
      = JValue.str ("example.com - Homepage") := rfl
  refine ⟨_, _, rfl, rfl, ?_, rfl, rfl, ?_⟩
  · rw [show (fixForPage ceOkCall ceParseNum [] samplePage).optimizedTitle
        = JValue.num 42 from rfl, hfb]
    simp
  · rw [show (fixForPage ceOkCall ceParseEmpty [] samplePage).optimizedTitle
        = JValue.str ("example.com - Homepage") from rfl]
    simp

/-- The JS-falsy runtime values: those the `||` defaulting replaces. -/
def isFalsy (v : JValue) : Prop :=
  v = .undefined ∨ v = .null ∨ v = .bool false ∨ v = .num 0 ∨ v = JValue.str ""

/-- Truthiness is the complement of the falsy enumeration. -/
theorem truthy_eq_false_iff (v : JValue) : truthy v = false ↔ isFalsy v := by
  cases v <;> simp [truthy, isFalsy]

/-- JS `a || b` picks `b` exactly on falsy `a`. -/
theorem jsOr_falsy (a b : JValue) :
    (isFalsy a → jsOr a b = b) ∧ (¬ isFalsy a → jsOr a b = a) := by
  constructor
  · intro h
    unfold jsOr
    rw [(truthy_eq_false_iff a).mpr h]
    rfl
  · intro h
    unfold jsOr
    cases ht : truthy a with
    | false => exact absurd ((truthy_eq_false_iff a).mp ht) h
    | true => rfl

/-- C3 amended: each of the five fields of the produced fix independently
equals the deterministic fallback exactly when the corresponding response
field is JS-falsy — absent (`undefined`), `null`, `false`, `0` or the
empty string — and equals the response field whenever it is truthy, of any
type; a failed call, a failed parse, or a `null` parse result yields the
whole fallback fix; and the fallback title/description are strings of at
most 60/160 characters. -/
theorem generateFixes_field_defaulting
    (call : String → Nat → CallOutcome) (parse : String → Option JValue)
    (issues : List SeoIssue) (page : CrawledPage) (parsed : JValue) :
    (∀ e, callOpenAIWithRetry (call (buildPrompt page issues)) MAX_RETRIES = .error e →
      fixForPage call parse issues page = fallbackFix page) ∧
    (∀ raw, callOpenAIWithRetry (call (buildPrompt page issues)) MAX_RETRIES = .ok raw →
      parse raw = none → fixForPage call parse issues page = fallbackFix page) ∧
    (∀ raw, callOpenAIWithRetry (call (buildPrompt page issues)) MAX_RETRIES = .ok raw →
      parse raw = some JValue.null → fixForPage call parse issues page = fallbackFix page) ∧
    (∀ raw, callOpenAIWithRetry (call (buildPrompt page issues)) MAX_RETRIES = .ok raw →
      parse raw = some parsed → parsed ≠ JValue.null →
      fixForPage call parse issues page = mkFixFromParsed page parsed) ∧
    (isFalsy (jGet parsed ("optimizedTitle")) →
      (mkFixFromParsed page parsed).optimizedTitle = (fallbackFix page).optimizedTitle) ∧
    (¬ isFalsy (jGet parsed ("optimizedTitle")) →
      (mkFixFromParsed page parsed).optimizedTitle = jGet parsed ("optimizedTitle")) ∧
    (isFalsy (jGet parsed ("optimizedMetaDescription")) →
      (mkFixFromParsed page parsed).optimizedMetaDescription
        = (fallbackFix page).optimizedMetaDescription) ∧
    (¬ isFalsy (jGet parsed ("optimizedMetaDescription")) →
      (mkFixFromParsed page parsed).optimizedMetaDescription
        = jGet parsed ("optimizedMetaDescription")) ∧
    (isFalsy (jGet parsed ("improvedH1")) →
      (mkFixFromParsed page parsed).improvedH1 = (fallbackFix page).improvedH1) ∧
    (¬ isFalsy (jGet parsed ("improvedH1")) →
      (mkFixFromParsed page parsed).improvedH1 = jGet parsed ("improvedH1")) ∧
    (isFalsy (jGet parsed ("jsonLdSchema")) →
      (mkFixFromParsed page parsed).jsonLdSchema = (fallbackFix page).jsonLdSchema) ∧
    (¬ isFalsy (jGet parsed ("jsonLdSchema")) →
      (mkFixFromParsed page parsed).jsonLdSchema = jGet parsed ("jsonLdSchema")) ∧
    (isFalsy (jGet parsed ("suggestedInternalLinkingText")) →
      (mkFixFromParsed page parsed).suggestedInternalLinkingText
        = (fallbackFix page).suggestedInternalLinkingText) ∧
    (¬ isFalsy (jGet parsed ("suggestedInternalLinkingText")) →
      (mkFixFromParsed page parsed).suggestedInternalLinkingText
        = jGet parsed ("suggestedInternalLinkingText")) ∧
    (∃ t, (fallbackFix page).optimizedTitle = JValue.str t ∧ t.length ≤ 60) ∧
    (∃ d, (fallbackFix page).optimizedMetaDescription = JValue.str d ∧ d.length ≤ 160) := by
  refine ⟨?_, ?_, ?_, ?_,
    (jsOr_falsy _ _).1, (jsOr_falsy _ _).2, (jsOr_falsy _ _).1, (jsOr_falsy _ _).2,
    (jsOr_falsy _ _).1, (jsOr_falsy _ _).2, (jsOr_falsy _ _).1, (jsOr_falsy _ _).2,
    (jsOr_falsy _ _).1, (jsOr_falsy _ _).2, ?_, ?_⟩
  · intro e h
    unfold fixForPage
    rw [h]
  · intro raw h hp
    unfold fixForPage
    rw [h]
    simp only []
    rw [hp]
  · intro raw h hp
    unfold fixForPage
    rw [h]
    simp only []
    rw [hp]
  · intro raw h hp _hne
    unfold fixForPage
    rw [h]
    simp only []
    rw [hp]
    cases parsed <;> rfl
  · refine ⟨truncateJs (fallbackTitle page) 60 57, rfl, ?_⟩
    unfold truncateJs
    split
    · rw [String.length_append]
      have h1 : (String.mk ((fallbackTitle page).toList.take 57)).length ≤ 57 := by
        rw [show (String.mk ((fallbackTitle page).toList.take 57)).length
            = ((fallbackTitle page).toList.take 57).length from rfl]
        exact List.length_take_le _ _
      have h3 : ("..." : String).length = 3 := rfl
      omega
    · omega
  · refine ⟨truncateJs (fallbackDescr page) 160 157, rfl, ?_⟩
    unfold truncateJs
    split
    · rw [String.length_append]
      have h1 : (String.mk ((fallbackDescr page).toList.take 157)).length ≤ 157 := by
        rw [show (String.mk ((fallbackDescr page).toList.take 157)).length
            = ((fallbackDescr page).toList.take 157).length from rfl]
        exact List.length_take_le _ _
      have h3 : ("..." : String).length = 3 := rfl
      omega
    · omega

/-- A completion capability that fails every call with a 429 status. -/
def ce429Call : String → Nat → CallOutcome :=
  fun _ _ => CallOutcome.err (some 429)

/-- Witness for the amended C3 theorem: under a permanently rate-limited
completion capability the produced fix is exactly the fallback fix. -/
theorem generateFixes_field_defaulting_witness :
    fixForPage ce429Call ceParseNum [] samplePage = fallbackFix samplePage :=
  (generateFixes_field_defaulting ce429Call ceParseNum [] samplePage JValue.null).1
    (some 429) rfl

/-- An issue is the orphan-page issue of url `u`. -/
abbrev orphanFor (u : String) (i : SeoIssue) : Prop :=
  i.issueType = orphanType ∧ i.pageUrl = some u

/-- One step of the first orphan loop. -/
theorem orphanLoop1_cons (fu : String) (p : CrawledPage) (rest : List CrawledPage)
    (issues : List SeoIssue) :
    orphanLoop1 fu (p :: rest) issues
      = orphanLoop1 fu rest
          (if p.internalLinks = 0 ∧ p.url ≠ fu then issues ++ [orphanIssueNoOutbound p.url]
           else issues) := rfl

/-- The first orphan loop keeps every accumulated issue. -/
theorem orphanLoop1_mono (fu : String) :
    ∀ (pages : List CrawledPage) (issues : List SeoIssue) (i : SeoIssue),
      i ∈ issues → i ∈ orphanLoop1 fu pages issues := by
  intro pages
  induction pages with
  | nil => intro issues i h; exact h
  | cons p rest ih =>
    intro issues i h
    rw [orphanLoop1_cons]
    refine ih _ i ?_
    split
    · exact List.mem_append_left _ h
    · exact h

/-- Everything the first orphan loop adds is an orphan issue of some page
with zero internal links and a url differing from the first page's. -/
theorem orphanLoop1_mem (fu : String) :
    ∀ (pages : List CrawledPage) (issues : List SeoIssue) (i : SeoIssue),
      i ∈ orphanLoop1 fu pages issues →
      i ∈ issues ∨ ∃ p ∈ pages, i = orphanIssueNoOutbound p.url ∧
        p.internalLinks = 0 ∧ p.url ≠ fu := by
  intro pages
  induction pages with
  | nil => intro issues i h; exact Or.inl h
  | cons p rest ih =>
    intro issues i h
    rw [orphanLoop1_cons] at h
    rcases ih _ i h with h1 | ⟨q, hq, he, hl, hu⟩
    · split at h1
      case isTrue hc =>
        rcases List.mem_append.mp h1 with h2 | h2
        · exact Or.inl h2
        · cases List.mem_singleton.mp h2
          exact Or.inr ⟨p, List.mem_cons_self _ _, rfl, hc.1, hc.2⟩
      case isFalse => exact Or.inl h1
    · exact Or.inr ⟨q, List.mem_cons_of_mem _ hq, he, hl, hu⟩

/-- The first orphan loop flags every page with zero internal links whose
url differs from the first page's. -/
theorem orphanLoop1_complete (fu : String) :
    ∀ (pages : List CrawledPage) (issues : List SeoIssue) (p : CrawledPage),
      p ∈ pages → p.internalLinks = 0 → p.url ≠ fu →
      orphanIssueNoOutbound p.url ∈ orphanLoop1 fu pages issues := by
  intro pages
  induction pages with
  | nil =>
    intro issues p h
    exact absurd h (List.not_mem_nil p)
  | cons q rest ih =>
    intro issues p hmem h0 hu
    rw [orphanLoop1_cons]
    rcases List.mem_cons.mp hmem with rfl | hmem2
    · refine orphanLoop1_mono fu rest _ _ ?_
      rw [if_pos ⟨h0, hu⟩]
      exact List.mem_append_right _ (List.mem_singleton_self _)
    · exact ih _ p hmem2 h0 hu

/-- Pages whose url is not `u` contribute no orphan issue of `u`. -/
theorem orphanLoop1_filter_no_url (fu u : String) :
    ∀ (pages : List CrawledPage) (issues : List SeoIssue),
      (∀ q ∈ pages, q.url ≠ u) →
      (orphanLoop1 fu pages issues).filter (fun i => orphanFor u i)
        = issues.filter (fun i => orphanFor u i) := by
  intro pages
  induction pages with
  | nil => intro issues _; rfl
  | cons p rest ih =>
    intro issues hne
    rw [orphanLoop1_cons]
    rw [ih _ (fun q hq => hne q (List.mem_cons_of_mem _ hq))]
    split
    · rw [List.filter_append]
      have hx : (([orphanIssueNoOutbound p.url] : List SeoIssue).filter
          (fun i => orphanFor u i)) = [] := by
        simp [orphanIssueNoOutbound, orphanFor, hne p (List.mem_cons_self _ _)]
      rw [hx, List.append_nil]
    · rfl

/-- With pairwise distinct page urls and no pre-existing orphan issue of
`u`, the first orphan loop emits at most one orphan issue of `u`. -/
theorem orphanLoop1_count (fu u : String) :
    ∀ (pages : List CrawledPage) (issues : List SeoIssue),
      (pages.map CrawledPage.url).Nodup →
      issues.filter (fun i => orphanFor u i) = [] →
      ((orphanLoop1 fu pages issues).filter (fun i => orphanFor u i)).length ≤ 1 := by
  intro pages
  induction pages with
  | nil =>
    intro issues _ h0
    show (issues.filter (fun i => orphanFor u i)).length ≤ 1
    rw [h0]
    norm_num
  | cons p rest ih =>
    intro issues hnd h0
    have hnd2 : (∀ x ∈ rest, ¬ x.url = p.url) ∧ (rest.map CrawledPage.url).Nodup := by
      simpa using hnd
    rw [orphanLoop1_cons]
    by_cases hpu : p.url = u
    · have hrest : ∀ q ∈ rest, q.url ≠ u := by
        intro q hq he
        exact hnd2.1 q hq (he.trans hpu.symm)
      rw [orphanLoop1_filter_no_url fu u rest _ hrest]
      split
      · rw [List.filter_append, h0]
        simp [orphanIssueNoOutbound, orphanFor, hpu]
      · rw [h0]
        norm_num
    · refine ih _ hnd2.2 ?_
      split
      · rw [List.filter_append, h0]
        simp [orphanIssueNoOutbound, orphanFor, hpu]
      · exact h0

/-- When no page carries the dynamic discovered-urls field — as is the
case for every page the crawler produces — the linked-to union is empty. -/
theorem linkedUnion_none_aux :
    ∀ (pages : List CrawledPage) (acc : List String),
      (∀ p ∈ pages, p._discoveredInternalUrls = none) →
      pages.foldl (fun s page =>
        match page._discoveredInternalUrls with
        | none => s
        | some us => us.foldl (fun t v => insertUniq t (normalizeForComparison v)) s) acc = acc := by
  intro pages
  induction pages with
  | nil => intro acc _; rfl
  | cons p rest ih =>
    intro acc hnone
    rw [List.foldl_cons, hnone p (List.mem_cons_self _ _)]
    exact ih acc (fun q hq => hnone q (List.mem_cons_of_mem _ hq))

/-- The linked-to union is empty for crawler-produced pages. -/
theorem linkedUnion_none (pages : List CrawledPage)
    (hnone : ∀ p ∈ pages, p._discoveredInternalUrls = none) :
    linkedUnion pages = [] :=
  linkedUnion_none_aux pages [] hnone

/-- The issues accumulated before the orphan check are never of the
orphan-page type. -/
theorem analyzerPrefix_not_orphan (pages : List CrawledPage) :
    ∀ i ∈ (pages.foldl (fun acc p => acc ++ pageChecks p) [] ++ checkDuplicateTitles pages),
      i.issueType ≠ orphanType := by
  intro i hi
  rcases List.mem_append.mp hi with h1 | h1
  · refine foldl_pred (fun j => j.issueType ≠ orphanType) _ ?_ _ _ (by simp) i h1
    intro acc a j hj
    rcases List.mem_append.mp hj with h2 | h2
    · exact Or.inl h2
    · exact Or.inr (pageChecks_not_orphan a j h2)
  · exact dupTitles_not_orphan pages i h1

/-- A clean page (no per-page issues) with one internal link. -/
def linkedPageA : CrawledPage :=
  { url := "https://site.test/", title := "A", metaDescription := "d",
    headings := { h1 := ["h"], h2 := [], h3 := [], h4 := [], h5 := [], h6 := [] },
    wordCount := 300, internalLinks := 1, externalLinks := 0, images := [],
    canonical := none, schemaScripts := [JValue.null], issues := [],
    _discoveredInternalUrls := none }

/-- A second clean page with one internal link and a distinct url. -/
def linkedPageB : CrawledPage :=
  { linkedPageA with url := "https://site.test/b", title := "B" }

/-- A two-page crawl whose pages have no discovered-link data, as the
crawler produces them. -/
def twoPageCrawl : CrawlResult :=
  { domain := "site.test", pagesCrawled := 2, pages := [linkedPageA, linkedPageB],
    errors := [] }

/-- C2 counterexample: in a two-page crawl with no discovered-link data
the union of all discovered-outbound-link sets is empty, so the second
page is not in that union, yet the analyzer emits no orphan-page issue
for it (the not-linked-to check is skipped entirely when the union is
empty, and the crawler never populates the field it reads). -/
theorem orphan_union_rule_counterexample :
    2 ≤ twoPageCrawl.pages.length ∧
    (∀ p ∈ twoPageCrawl.pages, p._discoveredInternalUrls = none) ∧
    ¬ (∃ i ∈ (analyzeRules twoPageCrawl).issues, orphanFor linkedPageB.url i) := by
  refine ⟨by decide, by decide, ?_⟩
  have hempty : (analyzeRules twoPageCrawl).issues = [] := by decide
  simp [hempty]

/-- C2 amended: with at least two pages and no discovered-link data (the
crawler pipeline's case, since `CrawledPage` never sets that field), the
orphan rule emits a warning exactly for the pages with zero internal
links whose url differs from the first page's url — the union-based check
never fires — and, when page urls are pairwise distinct, no url receives
more than one orphan-page issue. -/
theorem checkOrphanPages_amended (crawl : CrawlResult)
    (h2 : 2 ≤ crawl.pages.length)
    (hnone : ∀ p ∈ crawl.pages, p._discoveredInternalUrls = none)
    (hnd : (crawl.pages.map CrawledPage.url).Nodup) :
    (∀ p ∈ crawl.pages, p.internalLinks = 0 →
        p.url ≠ (crawl.pages.head?.map CrawledPage.url).getD "" →
        ∃ i ∈ (analyzeRules crawl).issues, orphanFor p.url i) ∧
    (∀ i ∈ (analyzeRules crawl).issues, i.issueType = orphanType →
        ∃ p ∈ crawl.pages, i.pageUrl = some p.url ∧ p.internalLinks = 0 ∧
          p.url ≠ (crawl.pages.head?.map CrawledPage.url).getD "") ∧
    (∀ u, ((analyzeRules crawl).issues.filter (fun i => orphanFor u i)).length ≤ 1) := by
  have hform : (analyzeRules crawl).issues
      = orphanLoop1 ((crawl.pages.head?.map CrawledPage.url).getD "") crawl.pages
          (crawl.pages.foldl (fun acc p => acc ++ pageChecks p) []
            ++ checkDuplicateTitles crawl.pages) := by
    show checkOrphanPages crawl.pages _ = _
    unfold checkOrphanPages
    rw [if_neg (by omega), linkedUnion_none crawl.pages hnone]
    simp
  have hpre : ∀ i ∈ (crawl.pages.foldl (fun acc p => acc ++ pageChecks p) []
      ++ checkDuplicateTitles crawl.pages), i.issueType ≠ orphanType :=
    analyzerPrefix_not_orphan crawl.pages
  refine ⟨?_, ?_, ?_⟩
  · intro p hp h0 hu
    refine ⟨orphanIssueNoOutbound p.url, ?_, rfl, rfl⟩
    rw [hform]
    exact orphanLoop1_complete _ crawl.pages _ p hp h0 hu
  · intro i hi ht
    rw [hform] at hi
    rcases orphanLoop1_mem _ crawl.pages _ i hi with h1 | ⟨p, hp, rfl, hl, hu⟩
    · exact absurd ht (hpre i h1)
    · exact ⟨p, hp, rfl, hl, hu⟩
  · intro u
    rw [hform]
    refine orphanLoop1_count _ u crawl.pages _ hnd ?_
    rw [List.filter_eq_nil_iff]
    intro i hi
    simp only [orphanFor, decide_eq_true_eq, not_and]
    intro hty
    exact absurd hty (hpre i hi)

/-- A page with zero internal links and a distinct url, for the witness. -/
def orphanWitnessPageD : CrawledPage :=
  { linkedPageA with url := "https://site.test/d", title := "D", internalLinks := 0 }

/-- Witness crawl: a linked first page plus an unlinked second page. -/
def orphanWitnessCrawl : CrawlResult :=
  { domain := "site.test", pagesCrawled := 2, pages := [linkedPageA, orphanWitnessPageD],
    errors := [] }

/-- Witness for the amended C2 theorem: the unlinked second page of the
witness crawl receives an orphan-page issue. -/
theorem checkOrphanPages_amended_witness :
    ∃ i ∈ (analyzeRules orphanWitnessCrawl).issues, orphanFor orphanWitnessPageD.url i :=
  (checkOrphanPages_amended orphanWitnessCrawl (by decide) (by decide) (by decide)).1
    orphanWitnessPageD (List.mem_cons_of_mem _ (List.mem_cons_self _ _)) rfl (by decide)

/-- The link-enqueueing fold of the crawl loop touches only the frontier
and the enqueued set, never the collected pages. -/
theorem linkFold_pages (bd : String) :
    ∀ (links : List String) (s : CrawlSt),
      (links.foldl (fun s link =>
        match normalizeUrl link bd with
        | some norm =>
          if norm ∉ s.visited ∧ norm ∉ s.enqueued then
            { s with enqueued := s.enqueued ++ [norm], queue := s.queue ++ [norm] }
          else s
        | none => s) s).pages = s.pages := by
  intro links
  induction links with
  | nil => intro s; rfl
  | cons l rest ih =>
    intro s
    rw [List.foldl_cons, ih]
    split
    · split <;> rfl
    · rfl

/-- The crawl loop never grows the page list beyond the cap. -/
theorem crawlLoop_pages_bound (fetch : String → Option PageData × List String)
    (robots : Option (String → Bool)) (sh bd : String) :
    ∀ (fuel : Nat) (st : CrawlSt), st.pages.length ≤ MAX_PAGES →
      (crawlLoop fetch robots sh bd fuel st).pages.length ≤ MAX_PAGES := by
  intro fuel
  induction fuel with
  | zero => intro st h; exact h
  | succ n ih =>
    intro st h
    rw [crawlLoop]
    split
    · exact h
    · split
      · split
        · exact ih _ h
        · split
          · exact ih _ h
          · split
            · exact ih _ h
            · split
              · exact ih _ h
              · split
                · exact ih _ h
                · split
                  · refine ih _ ?_
                    rw [linkFold_pages]
                    rename_i hlt _ _ _ _ _ _
                    simp only [List.length_append, List.length_cons, List.length_nil]
                    omega
                  · exact ih _ h
      · exact h

/-- Every page the crawl loop collects was already collected or has the
start hostname. -/
theorem crawlLoop_pages_host (fetch : String → Option PageData × List String)
    (robots : Option (String → Bool)) (sh bd : String) :
    ∀ (fuel : Nat) (st : CrawlSt) (p : CrawledPage),
      p ∈ (crawlLoop fetch robots sh bd fuel st).pages →
      p ∈ st.pages ∨ urlHostname p.url = some sh := by
  intro fuel
  induction fuel with
  | zero => intro st p h; exact Or.inl h
  | succ n ih =>
    intro st p h
    rw [crawlLoop] at h
    split at h
    · exact Or.inl h
    · split at h
      · split at h
        · exact (ih _ p h).imp (fun hh => hh) (fun hh => hh)
        · split at h
          · exact (ih _ p h).imp (fun hh => hh) (fun hh => hh)
          · split at h
            · exact (ih _ p h).imp (fun hh => hh) (fun hh => hh)
            · split at h
              · exact (ih _ p h).imp (fun hh => hh) (fun hh => hh)
              · split at h
                · exact (ih _ p h).imp (fun hh => hh) (fun hh => hh)
                · split at h
                  · rcases ih _ p h with h1 | h1
                    · rw [linkFold_pages] at h1
                      rcases List.mem_append.mp h1 with h2 | h2
                      · exact Or.inl h2
                      · cases List.mem_singleton.mp h2
                        right
                        simp_all [toCrawledPage, urlHostname]
                    · exact Or.inr h1
                  · exact (ih _ p h).imp (fun hh => hh) (fun hh => hh)
      · exact Or.inl h

/-- C5: every crawl returns at most `MAX_PAGES` (20) pages, and every
returned page's url has the hostname of the start URL — for every
behaviour of the page-rendering capability, robots.txt, browser launch
and loop fuel. -/
theorem crawlDomain_bounded_same_host (fetch : String → Option PageData × List String)
    (robots : Option (String → Bool)) (launchErr : Option String) (fuel : Nat)
    (startUrl : String) :
    (crawlDomain fetch robots launchErr fuel startUrl).pages.length ≤ MAX_PAGES ∧
    ∀ p ∈ (crawlDomain fetch robots launchErr fuel startUrl).pages,
      urlHostname p.url = urlHostname startUrl := by
  cases hs : jsURL startUrl none with
  | none =>
    constructor
    · simp [crawlDomain, hs, MAX_PAGES]
    · intro p hp
      simp [crawlDomain, hs] at hp
  | some ps =>
    cases launchErr with
    | some msg =>
      constructor
      · simp [crawlDomain, hs, MAX_PAGES]
      · intro p hp
        simp [crawlDomain, hs] at hp
    | none =>
      simp only [crawlDomain, hs]
      constructor
      · refine crawlLoop_pages_bound _ _ _ _ _ _ ?_
        split <;> simp [MAX_PAGES]
      · intro p hp
        rcases crawlLoop_pages_host _ _ _ _ _ _ p hp with h1 | h1
        · split at h1 <;> simp at h1
        · rw [h1]
          simp [urlHostname, hs]

/-- Minimal page data returned by the witness fetch capability. -/
def wPD : PageData :=
  { title := "t", metaDescription := "d",
    headings := { h1 := ["h"], h2 := [], h3 := [], h4 := [], h5 := [], h6 := [] },
    wordCount := 300, internalLinks := 1, externalLinks := 0, images := [],
    canonical := none, schemaScripts := [], issues := [] }

/-- A fetch capability returning the same page data for every url, with
no discovered links. -/
def wFetch : String → Option PageData × List String :=
  fun _ => (some wPD, [])

/-- Witness for C5: a one-page crawl satisfies the bound, and its single
page (which the loop collected) has the start URL's hostname. -/
theorem crawlDomain_bounded_same_host_witness :
    (crawlDomain wFetch none none 3 ("https://ex.test/")).pages.length ≤ MAX_PAGES ∧
    urlHostname (toCrawledPage ("https://ex.test/") wPD).url
      = urlHostname ("https://ex.test/") :=
  ⟨(crawlDomain_bounded_same_host wFetch none none 3 ("https://ex.test/")).1,
   (crawlDomain_bounded_same_host wFetch none none 3 ("https://ex.test/")).2
     (toCrawledPage ("https://ex.test/") wPD) (List.mem_cons_self _ _)⟩

/-- Progress lookups at other keys are unaffected by `setProgress`. -/
theorem getProgress_setProgress_other :
    ∀ (m : List (Nat × Stage)) (k : Nat) (v : Stage) (k2 : Nat), k2 ≠ k →
      getProgress (setProgress m k v) k2 = getProgress m k2 := by
  intro m
  induction m with
  | nil =>
    intro k v k2 h
    simp [setProgress, getProgress, Ne.symm h]
  | cons kv rest ih =>
    intro k v k2 h
    unfold setProgress
    split
    · rename_i hc
      simp [getProgress, hc, Ne.symm h]
    · by_cases h2 : kv.1 = k2
      · simp [getProgress, h2]
      · simp [getProgress, h2]
        exact ih k v k2 h

/-- Progress lookup at the written key returns the written stage. -/
theorem getProgress_setProgress_same :
    ∀ (m : List (Nat × Stage)) (k : Nat) (v : Stage),
      getProgress (setProgress m k v) k = some v := by
  intro m
  induction m with
  | nil => intro k v; simp [setProgress, getProgress]
  | cons kv rest ih =>
    intro k v
    unfold setProgress
    split
    · simp [getProgress]
    · rename_i hc
      simp [getProgress, hc]
      exact ih k v

/-- The pool invariant: queued and running jobs come from the enqueued
list, and every enqueued job is queued, running, or has reached a
terminal progress stage. -/
def PoolInv (jobs : List AuditJob) (s : PoolSt) : Prop :=
  (∀ j ∈ s.queue ++ s.running, j ∈ jobs) ∧
  (∀ j ∈ jobs, j ∈ s.queue ∨ j ∈ s.running ∨
    ∃ st, getProgress s.progress j.auditId = some st ∧ (st = Stage.done ∨ st = Stage.error))

/-- The pool invariant holds in the state left by `enqueueAudit`. -/
theorem poolInv_init (jobs : List AuditJob) : PoolInv jobs (initPool jobs) := by
  constructor
  · intro j hj
    simpa [initPool] using hj
  · intro j hj
    exact Or.inl hj

/-- Every pool step preserves the pool invariant, given distinct audit
ids. -/
theorem poolInv_step (jobs : List AuditJob)
    (hnd : (jobs.map AuditJob.auditId).Nodup) (outcome : Nat → Bool)
    (s t : PoolSt) (hstep : PoolStep outcome s t) (hinv : PoolInv jobs s) :
    PoolInv jobs t := by
  obtain ⟨hsub, htrack⟩ := hinv
  cases hstep with
  | start j rest run prog hlt =>
    constructor
    · intro x hx
      refine hsub x ?_
      rcases List.mem_append.mp hx with h1 | h1
      · exact List.mem_append_left _ (List.mem_cons_of_mem _ h1)
      · rcases List.mem_cons.mp h1 with rfl | h2
        · exact List.mem_append_left _ (List.mem_cons_self _ _)
        · exact List.mem_append_right _ h2
    · intro j2 hj2
      rcases htrack j2 hj2 with h1 | h1 | ⟨st, hst, hterm⟩
      · rcases List.mem_cons.mp h1 with rfl | h2
        · exact Or.inr (Or.inl (List.mem_cons_self _ _))
        · exact Or.inl h2
      · exact Or.inr (Or.inl (List.mem_cons_of_mem _ h1))
      · by_cases hid : j2.auditId = j.auditId
        · have hjin : j ∈ jobs := hsub j (List.mem_append_left _ (List.mem_cons_self _ _))
          have : j2 = j := List.inj_on_of_nodup_map hnd hj2 hjin hid
          cases this
          exact Or.inr (Or.inl (List.mem_cons_self _ _))
        · refine Or.inr (Or.inr ⟨st, ?_, hterm⟩)
          rw [getProgress_setProgress_other _ _ _ _ hid]
          exact hst
  | finish j pre post q prog =>
    constructor
    · intro x hx
      refine hsub x ?_
      rcases List.mem_append.mp hx with h1 | h1
      · exact List.mem_append_left _ h1
      · refine List.mem_append_right _ ?_
        rcases List.mem_append.mp h1 with h2 | h2
        · exact List.mem_append_left _ h2
        · exact List.mem_append_right _ (List.mem_cons_of_mem _ h2)
    · intro j2 hj2
      by_cases hid : j2.auditId = j.auditId
      · refine Or.inr (Or.inr ⟨if outcome j.auditId then Stage.done else Stage.error, ?_, ?_⟩)
        · rw [hid]
          exact getProgress_setProgress_same _ _ _
        · cases outcome j.auditId <;> simp
      · rcases htrack j2 hj2 with h1 | h1 | ⟨st, hst, hterm⟩
        · exact Or.inl h1
        · rcases List.mem_append.mp h1 with h2 | h2
          · exact Or.inr (Or.inl (List.mem_append_left _ h2))
          · rcases List.mem_cons.mp h2 with rfl | h3
            · exact absurd rfl hid
            · exact Or.inr (Or.inl (List.mem_append_right _ h3))
        · refine Or.inr (Or.inr ⟨st, ?_, hterm⟩)
          rw [getProgress_setProgress_other _ _ _ _ hid]
          exact hst

/-- The pool invariant holds in every reachable state. -/
theorem poolInv_reach (jobs : List AuditJob)
    (hnd : (jobs.map AuditJob.auditId).Nodup) (outcome : Nat → Bool)
    (s : PoolSt) (hreach : PoolReach outcome (initPool jobs) s) :
    PoolInv jobs s := by
  induction hreach with
  | refl => exact poolInv_init jobs
  | tail _ hstep ih => exact poolInv_step jobs hnd outcome _ _ hstep ih

/-- A pool step never pushes the running count above the limit. -/
theorem poolRunning_step (outcome : Nat → Bool) (s t : PoolSt)
    (hstep : PoolStep outcome s t) (h : s.running.length ≤ CONCURRENCY) :
    t.running.length ≤ CONCURRENCY := by
  cases hstep with
  | start j rest run prog hlt =>
    simp only [List.length_cons]
    simpa using hlt
  | finish j pre post q prog =>
    simp only [List.length_append, List.length_cons] at h ⊢
    omega

/-- Every pool step strictly decreases the pool measure. -/
theorem poolMeasure_step (outcome : Nat → Bool) (s t : PoolSt)
    (hstep : PoolStep outcome s t) : poolMeasure t < poolMeasure s := by
  cases hstep with
  | start j rest run prog hlt =>
    simp [poolMeasure]
    omega
  | finish j pre post q prog =>
    simp [poolMeasure]

/-- A state with no enabled step has an empty queue and nothing running. -/
theorem poolStuck (outcome : Nat → Bool) (s : PoolSt)
    (hstuck : ∀ t, ¬ PoolStep outcome s t) : s.queue = [] ∧ s.running = [] := by
  have hrun : s.running = [] := by
    cases hr : s.running with
    | nil => rfl
    | cons j rs =>
      have hstep : PoolStep outcome ⟨s.queue, [] ++ j :: rs, s.progress⟩
          ⟨s.queue, [] ++ rs, setProgress s.progress j.auditId
            (if outcome j.auditId then .done else .error)⟩ :=
        PoolStep.finish j [] rs s.queue s.progress
      rw [← hr] at hstep
      exact absurd hstep (hstuck _)
  have hq : s.queue = [] := by
    cases hq2 : s.queue with
    | nil => rfl
    | cons j rest =>
      have hlt : s.running.length < CONCURRENCY := by
        rw [hrun]
        simp [CONCURRENCY]
      have hstep : PoolStep outcome ⟨j :: rest, s.running, s.progress⟩
          ⟨rest, j :: s.running, setProgress s.progress j.auditId .crawling⟩ :=
        PoolStep.start j rest s.running s.progress hlt
      rw [← hq2] at hstep
      exact absurd hstep (hstuck _)
  exact ⟨hq, hrun⟩

/-- C8: in every state reachable from enqueuing a list of jobs (with
distinct audit ids) the number of concurrently running pipeline
executions never exceeds the concurrency limit 2; every step strictly
decreases a finite measure, so every execution terminates; and in any
state where no step is enabled every enqueued job has reached a terminal
progress stage, `done` or `error`. -/
theorem workerPool_spec (outcome : Nat → Bool) (jobs : List AuditJob)
    (hnd : (jobs.map AuditJob.auditId).Nodup) (s : PoolSt)
    (hreach : PoolReach outcome (initPool jobs) s) :
    s.running.length ≤ CONCURRENCY ∧
    (∀ t, PoolStep outcome s t → poolMeasure t < poolMeasure s) ∧
    ((∀ t, ¬ PoolStep outcome s t) →
      ∀ j ∈ jobs, ∃ st, getProgress s.progress j.auditId = some st ∧
        (st = Stage.done ∨ st = Stage.error)) := by
  refine ⟨?_, fun t ht => poolMeasure_step outcome s t ht, ?_⟩
  · induction hreach with
    | refl => simp [initPool, CONCURRENCY]
    | tail _ hstep ih => exact poolRunning_step outcome _ _ hstep ih
  · intro hstuck j hj
    obtain ⟨hq, hrun⟩ := poolStuck outcome s hstuck
    rcases (poolInv_reach jobs hnd outcome s hreach).2 j hj with h1 | h1 | h1
    · rw [hq] at h1
      exact absurd h1 (List.not_mem_nil j)
    · rw [hrun] at h1
      exact absurd h1 (List.not_mem_nil j)
    · exact h1

/-- Five concrete jobs with distinct audit ids. -/
def fiveJobs : List AuditJob :=
  [{ auditId := 1, userId := "u", url := "https://a.test/", domain := "a.test" },
   { auditId := 2, userId := "u", url := "https://b.test/", domain := "b.test" },
   { auditId := 3, userId := "u", url := "https://c.test/", domain := "c.test" },
   { auditId := 4, userId := "u", url := "https://d.test/", domain := "d.test" },
   { auditId := 5, userId := "u", url := "https://e.test/", domain := "e.test" }]

/-- Witness for C8 at the initial state of five enqueued jobs: the
running count is within the limit of 2. -/
theorem workerPool_spec_witness :
    (initPool fiveJobs).running.length ≤ CONCURRENCY :=
  (workerPool_spec (fun _ => true) fiveJobs (by decide) (initPool fiveJobs)
    Relation.ReflTransGen.refl).1

section CharKit

/-- Valid code points round-trip through `Char.ofNat`. -/
theorem toNat_ofNat_valid (n : Nat) (h : n < 0xd800) : (Char.ofNat n).toNat = n := by
  unfold Char.ofNat
  split
  · rfl
  · rename_i hn
    exact absurd (Or.inl h) hn

/-- Character order is code-point order. -/
theorem char_le_iff_toNat (a b : Char) : a ≤ b ↔ a.toNat ≤ b.toNat := by
  rw [Char.le_def]
  exact Iff.rfl

/-- Characters are equal when their code points are. -/
theorem char_eq_iff_toNat (a b : Char) : a = b ↔ a.toNat = b.toNat := by
  constructor
  · intro h; rw [h]
  · intro h
    apply Char.ext
    apply UInt32.ext
    exact h

/-- Lowercasing leaves non-uppercase characters unchanged. -/
theorem lowerChar_eq_self (c : Char) (h : ¬('A' ≤ c ∧ c ≤ 'Z')) : lowerChar c = c := by
  unfold lowerChar
  rw [if_neg h]

/-- The code point of a lowercased uppercase letter. -/
theorem lowerChar_toNat_of_upper (c : Char) (h : 'A' ≤ c ∧ c ≤ 'Z') :
    (lowerChar c).toNat = c.toNat + 32 := by
  unfold lowerChar
  rw [if_pos h]
  have h2 : c.toNat ≤ 90 := (char_le_iff_toNat c 'Z').mp h.2
  exact toNat_ofNat_valid _ (by omega)

/-- Lowercasing an uppercase letter yields a lowercase letter. -/
theorem lowerChar_lower_of_upper (c : Char) (h : 'A' ≤ c ∧ c ≤ 'Z') :
    'a' ≤ lowerChar c ∧ lowerChar c ≤ 'z' := by
  have h1 : 65 ≤ c.toNat := (char_le_iff_toNat 'A' c).mp h.1
  have h2 : c.toNat ≤ 90 := (char_le_iff_toNat c 'Z').mp h.2
  have h3 := lowerChar_toNat_of_upper c h
  have ha : ('a' : Char).toNat = 97 := rfl
  have hz : ('z' : Char).toNat = 122 := rfl
  constructor
  · rw [char_le_iff_toNat, h3]
    omega
  · rw [char_le_iff_toNat, h3]
    omega

/-- A lowercased character is never an uppercase letter. -/
theorem lowerChar_not_upper (c : Char) : ¬('A' ≤ lowerChar c ∧ lowerChar c ≤ 'Z') := by
  by_cases h : 'A' ≤ c ∧ c ≤ 'Z'
  · intro hcontra
    have h1 := lowerChar_toNat_of_upper c h
    have h2 : c.toNat ≤ 90 := (char_le_iff_toNat c 'Z').mp h.2
    have h3 : (lowerChar c).toNat ≤ 90 := (char_le_iff_toNat _ 'Z').mp hcontra.2
    have h4 : 65 ≤ c.toNat := (char_le_iff_toNat 'A' c).mp h.1
    omega
  · rw [lowerChar_eq_self c h]
    exact h

/-- Lowercasing is idempotent. -/
theorem lowerChar_idem (c : Char) : lowerChar (lowerChar c) = lowerChar c :=
  lowerChar_eq_self _ (lowerChar_not_upper c)

/-- Mapping `lowerChar` is idempotent on lists. -/
theorem map_lowerChar_idem (l : List Char) :
    (l.map lowerChar).map lowerChar = l.map lowerChar := by
  rw [List.map_map]
  exact List.map_congr_left (fun c _ => lowerChar_idem c)

/-- For a target character that is neither an uppercase nor a lowercase
letter, lowercasing reaches it only from itself. -/
theorem lowerChar_eq_symbol (c x : Char) (hx1 : ¬('A' ≤ x ∧ x ≤ 'Z'))
    (hx2 : ¬('a' ≤ x ∧ x ≤ 'z')) : lowerChar c = x ↔ c = x := by
  by_cases hc : 'A' ≤ c ∧ c ≤ 'Z'
  · constructor
    · intro he
      exact absurd (he ▸ lowerChar_lower_of_upper c hc) hx2
    · intro he
      exact absurd (he ▸ hc) hx1
  · rw [lowerChar_eq_self c hc]

/-- A character whose code point is below 65 is not uppercase. -/
theorem not_upper_of_toNat_lt (c : Char) (h : c.toNat < 65) : ¬('A' ≤ c ∧ c ≤ 'Z') := by
  intro hc
  have h1 := (char_le_iff_toNat 'A' c).mp hc.1
  have ha : ('A' : Char).toNat = 65 := rfl
  omega

/-- A lowercase letter is not uppercase. -/
theorem not_upper_of_lower (c : Char) (h : 'a' ≤ c ∧ c ≤ 'z') : ¬('A' ≤ c ∧ c ≤ 'Z') := by
  intro hc
  have h1 := (char_le_iff_toNat 'a' c).mp h.1
  have h2 := (char_le_iff_toNat c 'Z').mp hc.2
  have ha : ('a' : Char).toNat = 97 := rfl
  have hz : ('Z' : Char).toNat = 90 := rfl
  omega

/-- Lowercasing preserves being a scheme start character. -/
theorem isSchemeStartChar_lowerChar (c : Char) (h : isSchemeStartChar c = true) :
    isSchemeStartChar (lowerChar c) = true := by
  simp only [isSchemeStartChar, decide_eq_true_eq] at h ⊢
  rcases h with h | h
  · exact Or.inr (lowerChar_lower_of_upper c h)
  · rw [lowerChar_eq_self c (not_upper_of_lower c h)]
    exact Or.inr h

/-- Lowercasing preserves being a scheme character. -/
theorem isSchemeChar_lowerChar (c : Char) (h : isSchemeChar c = true) :
    isSchemeChar (lowerChar c) = true := by
  simp only [isSchemeChar, decide_eq_true_eq] at h ⊢
  rcases h with h | h | h | h | h
  · exact Or.inl (isSchemeStartChar_lowerChar c h)
  · have h1 := (char_le_iff_toNat c '9').mp h.2
    have h9 : ('9' : Char).toNat = 57 := rfl
    rw [lowerChar_eq_self c (not_upper_of_toNat_lt c (by omega))]
    exact Or.inr (Or.inl h)
  · rw [h, lowerChar_eq_self _ (by decide)]
    exact Or.inr (Or.inr (Or.inl rfl))
  · rw [h, lowerChar_eq_self _ (by decide)]
    exact Or.inr (Or.inr (Or.inr (Or.inl rfl)))
  · rw [h, lowerChar_eq_self _ (by decide)]
    exact Or.inr (Or.inr (Or.inr (Or.inr rfl)))

/-- Lowercasing neither creates nor removes authority terminators. -/
theorem isAuthTerm_lowerChar (sp : Bool) (c : Char) :
    isAuthTerm sp (lowerChar c) = isAuthTerm sp c := by
  have h1 := lowerChar_eq_symbol c '/' (by decide) (by decide)
  have h2 := lowerChar_eq_symbol c '?' (by decide) (by decide)
  have h3 := lowerChar_eq_symbol c '#' (by decide) (by decide)
  have h4 := lowerChar_eq_symbol c '\\' (by decide) (by decide)
  simp only [isAuthTerm]
  exact decide_eq_decide.mpr (by rw [h1, h2, h3, h4])

end CharKit

section ListKit

variable {p : Char → Bool}

/-- `takeWhile` over an all-true prefix. -/
theorem takeWhile_append_all (l1 l2 : List Char) (h : ∀ c ∈ l1, p c = true) :
    (l1 ++ l2).takeWhile p = l1 ++ l2.takeWhile p := by
  induction l1 with
  | nil => rfl
  | cons c rest ih =>
    rw [List.cons_append, List.takeWhile_cons, if_pos (h c (List.mem_cons_self _ _))]
    rw [ih (fun d hd => h d (List.mem_cons_of_mem _ hd))]
    rfl

/-- `dropWhile` over an all-true prefix. -/
theorem dropWhile_append_all (l1 l2 : List Char) (h : ∀ c ∈ l1, p c = true) :
    (l1 ++ l2).dropWhile p = l2.dropWhile p := by
  induction l1 with
  | nil => rfl
  | cons c rest ih =>
    rw [List.cons_append, List.dropWhile_cons, if_pos (h c (List.mem_cons_self _ _))]
    exact ih (fun d hd => h d (List.mem_cons_of_mem _ hd))

/-- `takeWhile` of an all-true list. -/
theorem takeWhile_all (l : List Char) (h : ∀ c ∈ l, p c = true) : l.takeWhile p = l := by
  have := takeWhile_append_all (p := p) l [] h
  simpa using this

/-- `dropWhile` of an all-true list. -/
theorem dropWhile_all (l : List Char) (h : ∀ c ∈ l, p c = true) : l.dropWhile p = [] := by
  have := dropWhile_append_all (p := p) l [] h
  simpa using this

/-- `afterLastAt` of a list without `@` is the list itself. -/
theorem afterLastAt_no_at (l : List Char) (h : ∀ c ∈ l, c ≠ '@') : afterLastAt l = l := by
  unfold afterLastAt
  rw [takeWhile_all]
  · exact List.reverse_reverse l
  · intro c hc
    have : c ∈ l := List.mem_reverse.mp hc
    simpa using h c this

/-- Members of a `takeWhile` are members of the list. -/
theorem mem_takeWhile_mem {c : Char} : ∀ (l : List Char), c ∈ l.takeWhile p → c ∈ l := by
  intro l
  induction l with
  | nil => intro h; simp at h
  | cons x xs ih =>
    intro h
    rw [List.takeWhile_cons] at h
    split at h
    · rcases List.mem_cons.mp h with rfl | h2
      · exact List.mem_cons_self _ _
      · exact List.mem_cons_of_mem _ (ih h2)
    · simp at h

/-- Members of a `dropWhile` are members of the list. -/
theorem mem_dropWhile_mem {c : Char} : ∀ (l : List Char), c ∈ l.dropWhile p → c ∈ l := by
  intro l
  induction l with
  | nil => intro h; simp at h
  | cons x xs ih =>
    intro h
    rw [List.dropWhile_cons] at h
    split at h
    · exact List.mem_cons_of_mem _ (ih h)
    · exact h

/-- The head of a `dropWhile` result fails the predicate. -/
theorem dropWhile_head_not : ∀ (l : List Char) (c : Char) (t : List Char),
    l.dropWhile p = c :: t → p c = false := by
  intro l
  induction l with
  | nil => intro c t h; simp at h
  | cons x xs ih =>
    intro c t h
    rw [List.dropWhile_cons] at h
    split at h
    · exact ih c t h
    · rename_i hx
      injection h with h1 h2
      rw [← h1]
      simpa using hx

/-- Members of `afterLastAt l` are members of `l`. -/
theorem afterLastAt_subset (l : List Char) : ∀ c ∈ afterLastAt l, c ∈ l := by
  intro c hc
  unfold afterLastAt at hc
  rw [List.mem_reverse] at hc
  exact List.mem_reverse.mp (mem_takeWhile_mem _ hc)

/-- Members of `dropTrailingSlashes l` are members of `l`. -/
theorem dropTrailingSlashes_subset (l : List Char) : ∀ c ∈ dropTrailingSlashes l, c ∈ l := by
  intro c hc
  unfold dropTrailingSlashes at hc
  rw [List.mem_reverse] at hc
  exact List.mem_reverse.mp (mem_dropWhile_mem _ hc)

/-- Members of the normalized path are members of the path or the slash. -/
theorem normPath_subset (l : List Char) : ∀ c ∈ normPath l, c ∈ l ∨ c = '/' := by
  intro c hc
  simp only [normPath] at hc
  split at hc
  · right
    simpa using hc
  · exact Or.inl (dropTrailingSlashes_subset l c hc)

/-- The normalized path is never empty. -/
theorem normPath_ne_nil (l : List Char) : normPath l ≠ [] := by
  simp only [normPath]
  split
  · simp
  · assumption

/-- A list without a trailing slash is unchanged by `dropTrailingSlashes`. -/
theorem dropTrailingSlashes_eq_self (l : List Char)
    (h : ∀ t, l.reverse = '/' :: t → False) : dropTrailingSlashes l = l := by
  unfold dropTrailingSlashes
  cases hr : l.reverse with
  | nil =>
    have : l = [] := by simpa using congrArg List.reverse hr
    simp [this]
  | cons c t =>
    rw [List.dropWhile_cons]
    rw [if_neg ?hneg]
    · rw [← hr, List.reverse_reverse]
    case hneg =>
      intro hcontra
      have : c = '/' := by simpa using hcontra
      exact h t (by rw [hr, this])

/-- `dropTrailingSlashes` is idempotent. -/
theorem dropTrailingSlashes_idem (l : List Char) :
    dropTrailingSlashes (dropTrailingSlashes l) = dropTrailingSlashes l := by
  refine dropTrailingSlashes_eq_self _ ?_
  intro t ht
  unfold dropTrailingSlashes at ht
  rw [List.reverse_reverse] at ht
  have h2 := dropWhile_head_not (p := fun c => (c = '/' : Bool)) l.reverse '/' t ht
  simp at h2

/-- The normalized path is idempotent under normalization. -/
theorem normPath_idem (l : List Char) : normPath (normPath l) = normPath l := by
  by_cases h : dropTrailingSlashes l = []
  · rw [show normPath l = ['/'] from by simp only [normPath]; rw [if_pos h]]
    rfl
  · rw [show normPath l = dropTrailingSlashes l from by simp only [normPath]; rw [if_neg h]]
    simp only [normPath]
    rw [dropTrailingSlashes_idem, if_neg h]

/-- The head of a nonempty `takeWhile` heads the list. -/
theorem takeWhile_head {c : Char} {t : List Char} :
    ∀ (l : List Char), l.takeWhile p = c :: t → ∃ t2, l = c :: t2 := by
  intro l h
  cases l with
  | nil => simp at h
  | cons x xs =>
    rw [List.takeWhile_cons] at h
    split at h
    · injection h with h1 h2
      exact ⟨xs, by rw [h1]⟩
    · simp at h

end ListKit

section SlashKit

/-- `slashify` never produces a backslash. -/
theorem slashify_ne_backslash (c : Char) : slashify c ≠ '\\' := by
  unfold slashify
  split
  · decide
  · assumption

/-- What `slashify` maps to a given character. -/
theorem slashify_eq_cases (c x : Char) (h : slashify c = x) :
    c = x ∨ (c = '\\' ∧ x = '/') := by
  unfold slashify at h
  split at h
  · rename_i hc
    exact Or.inr ⟨hc, h.symm⟩
  · exact Or.inl h

/-- `upToLastSlash l` is a prefix of `l`. -/
theorem upToLastSlash_prefix_of (l : List Char) :
    ∃ t2, l = upToLastSlash l ++ t2 := by
  refine ⟨(l.reverse.takeWhile (fun c => !(c = '/' : Bool))).reverse, ?_⟩
  unfold upToLastSlash
  rw [← List.reverse_append, List.takeWhile_append_dropWhile, List.reverse_reverse]

/-- `upToLastSlash` of a list containing a slash is nonempty. -/
theorem upToLastSlash_ne_nil (l : List Char) (h : ('/' : Char) ∈ l) :
    upToLastSlash l ≠ [] := by
  unfold upToLastSlash
  intro hc
  have h2 : l.reverse.dropWhile (fun c => !(c = '/' : Bool)) = [] := by
    simpa using congrArg List.reverse hc
  rw [List.dropWhile_eq_nil_iff] at h2
  have h3 := h2 '/' (List.mem_reverse.mpr h)
  simp at h3

/-- `upToLastSlash` of a slash-headed list is slash-headed. -/
theorem upToLastSlash_head (t : List Char) :
    ∃ t2, upToLastSlash ('/' :: t) = '/' :: t2 := by
  obtain ⟨t3, ht⟩ := upToLastSlash_prefix_of ('/' :: t)
  have hne := upToLastSlash_ne_nil ('/' :: t) (List.mem_cons_self _ _)
  cases hu : upToLastSlash ('/' :: t) with
  | nil => exact absurd hu hne
  | cons c rest =>
    rw [hu] at ht
    injection ht with h1 h2
    exact ⟨rest, by rw [h1]⟩

end SlashKit

/-- The scheme of a parsed record: its protocol without the colon. -/
def schemeOf (r : URLRec) : List Char :=
  r.protocol.dropLast

/-- Whether a parsed record's scheme is special. -/
def isSpecial (r : URLRec) : Bool :=
  specialSchemes.contains (schemeOf r)

/-- Invariants of every record `parseURL` produces; they are what makes
the normal serialization re-parse to the same components. -/
structure RecOk (r : URLRec) : Prop where
  scheme_shape : ∃ c0 cs, schemeOf r = c0 :: cs ∧ isSchemeStartChar c0 = true ∧
    (∀ c ∈ cs, isSchemeChar c = true)
  scheme_lower : (schemeOf r).map lowerChar = schemeOf r
  proto_eq : r.protocol = schemeOf r ++ [':']
  host_noterm : ∀ c ∈ r.hostname, isAuthTerm (isSpecial r) c = false
  host_noat : ∀ c ∈ r.hostname, c ≠ '@'
  host_lower : r.hostname.map lowerChar = r.hostname
  host_bracket : ∀ t, r.hostname = '[' :: t → ∃ inner, t = inner ++ [']'] ∧ ']' ∉ inner
  host_nocolon : (∀ t, r.hostname ≠ '[' :: t) → ':' ∉ r.hostname
  host_nonempty : isSpecial r = true → r.hostname ≠ []
  path_clean : ∀ c ∈ r.pathname, c ≠ '?' ∧ c ≠ '#'
  path_special : isSpecial r = true → (∃ p2, r.pathname = '/' :: p2) ∧ '\\' ∉ r.pathname

/-- Host facts shared by both `parseHostPort` branches: the returned host
is a lowercased list of characters that were neither terminators nor `@`.
-/
theorem host_base_facts (sp : Bool) (base : List Char)
    (hb : ∀ c ∈ base, isAuthTerm sp c = false ∧ c ≠ '@') :
    (∀ c ∈ base.map lowerChar, isAuthTerm sp c = false) ∧
    (∀ c ∈ base.map lowerChar, c ≠ '@') := by
  constructor
  · intro c hc
    rcases List.mem_map.mp hc with ⟨d, hd, rfl⟩
    rw [isAuthTerm_lowerChar]
    exact (hb d hd).1
  · intro c hc
    rcases List.mem_map.mp hc with ⟨d, hd, rfl⟩
    intro hcontra
    exact (hb d hd).2 ((lowerChar_eq_symbol d '@' (by decide) (by decide)).mp hcontra)

/-- The five host facts for the bracketed branch of `parseHostPort`. -/
theorem bracket_host_ok (sp : Bool) (auth t host : List Char)
    (heq : afterLastAt auth = '[' :: t)
    (hterm : ∀ c ∈ auth, isAuthTerm sp c = false)
    (hhost : host = ('[' :: (t.takeWhile (fun c => !(c = ']' : Bool)) ++ [']'])).map lowerChar) :
    (∀ c ∈ host, isAuthTerm sp c = false) ∧
    (∀ c ∈ host, c ≠ '@') ∧
    host.map lowerChar = host ∧
    (∀ t2, host = '[' :: t2 → ∃ inner, t2 = inner ++ [']'] ∧ ']' ∉ inner) ∧
    ((∀ t2, host ≠ '[' :: t2) → ':' ∉ host) := by
  have hhpsub := afterLastAt_subset auth
  have hhpnoat : ∀ c ∈ afterLastAt auth, c ≠ '@' := by
    intro c hc
    unfold afterLastAt at hc
    rw [List.mem_reverse] at hc
    have := List.mem_takeWhile_imp hc
    simpa using this
  have hbase : ∀ c ∈ '[' :: (t.takeWhile (fun c => !(c = ']' : Bool)) ++ [']']),
      isAuthTerm sp c = false ∧ c ≠ '@' := by
    intro c hc
    rcases List.mem_cons.mp hc with rfl | hc2
    · exact ⟨by cases sp <;> decide, by decide⟩
    · rcases List.mem_append.mp hc2 with hc3 | hc3
      · have hmem : c ∈ afterLastAt auth := by
          rw [heq]
          exact List.mem_cons_of_mem _ (mem_takeWhile_mem t hc3)
        exact ⟨hterm c (hhpsub c hmem), hhpnoat c hmem⟩
      · have hc4 : c = ']' := List.mem_singleton.mp hc3
        subst hc4
        exact ⟨by cases sp <;> decide, by decide⟩
  have hbf := host_base_facts sp _ hbase
  have hshape : host = '[' :: ((t.takeWhile (fun c => !(c = ']' : Bool))).map lowerChar ++ [']']) := by
    rw [hhost, List.map_cons, List.map_append]
    rw [show lowerChar '[' = '[' from by decide]
    rw [show List.map lowerChar [']'] = [']'] from by decide]
  refine ⟨hhost ▸ hbf.1, hhost ▸ hbf.2, by rw [hhost]; exact map_lowerChar_idem _, ?_, ?_⟩
  · intro t2 ht2
    rw [hshape] at ht2
    injection ht2 with h3 h4
    refine ⟨(t.takeWhile (fun c => !(c = ']' : Bool))).map lowerChar, h4.symm, ?_⟩
    intro hcontra
    rcases List.mem_map.mp hcontra with ⟨d, hd, hde⟩
    have hdn : d ≠ ']' := by
      have := List.mem_takeWhile_imp hd
      simpa using this
    exact hdn ((lowerChar_eq_symbol d ']' (by decide) (by decide)).mp hde)
  · intro hn
    exact absurd hshape (hn _)

/-- The five host facts for the plain branch of `parseHostPort`. -/
theorem plain_host_ok (sp : Bool) (auth host : List Char)
    (hnb : ∀ t, afterLastAt auth ≠ '[' :: t)
    (hterm : ∀ c ∈ auth, isAuthTerm sp c = false)
    (hhost : host = ((afterLastAt auth).takeWhile (fun c => !(c = ':' : Bool))).map lowerChar) :
    (∀ c ∈ host, isAuthTerm sp c = false) ∧
    (∀ c ∈ host, c ≠ '@') ∧
    host.map lowerChar = host ∧
    (∀ t2, host = '[' :: t2 → ∃ inner, t2 = inner ++ [']'] ∧ ']' ∉ inner) ∧
    ((∀ t2, host ≠ '[' :: t2) → ':' ∉ host) := by
  have hhpsub := afterLastAt_subset auth
  have hhpnoat : ∀ c ∈ afterLastAt auth, c ≠ '@' := by
    intro c hc
    unfold afterLastAt at hc
    rw [List.mem_reverse] at hc
    have := List.mem_takeWhile_imp hc
    simpa using this
  have hbase : ∀ c ∈ (afterLastAt auth).takeWhile (fun c => !(c = ':' : Bool)),
      isAuthTerm sp c = false ∧ c ≠ '@' := by
    intro c hc
    have hmem := mem_takeWhile_mem _ hc
    exact ⟨hterm c (hhpsub c hmem), hhpnoat c hmem⟩
  have hbf := host_base_facts sp _ hbase
  refine ⟨hhost ▸ hbf.1, hhost ▸ hbf.2, by rw [hhost]; exact map_lowerChar_idem _, ?_, ?_⟩
  · intro t2 ht2
    exfalso
    rw [hhost] at ht2
    cases htw : (afterLastAt auth).takeWhile (fun c => !(c = ':' : Bool)) with
    | nil => rw [htw] at ht2; simp at ht2
    | cons d ds =>
      rw [htw, List.map_cons] at ht2
      injection ht2 with h3 h4
      have hd : d = '[' := (lowerChar_eq_symbol d '[' (by decide) (by decide)).mp h3
      subst hd
      obtain ⟨t3, ht3⟩ := takeWhile_head _ htw
      exact hnb t3 ht3
  · intro _ hcontra
    rw [hhost] at hcontra
    rcases List.mem_map.mp hcontra with ⟨d, hd, hde⟩
    have hdn : d ≠ ':' := by
      have := List.mem_takeWhile_imp hd
      simpa using this
    exact hdn ((lowerChar_eq_symbol d ':' (by decide) (by decide)).mp hde)

/-- The facts `parseHostPort` guarantees about the host it returns, given
that the authority it read contained no terminator characters. -/
theorem parseHostPort_ok (sp : Bool) (auth host : List Char)
    (hterm : ∀ c ∈ auth, isAuthTerm sp c = false)
    (h : parseHostPort auth = some host) :
    (∀ c ∈ host, isAuthTerm sp c = false) ∧
    (∀ c ∈ host, c ≠ '@') ∧
    host.map lowerChar = host ∧
    (∀ t2, host = '[' :: t2 → ∃ inner, t2 = inner ++ [']'] ∧ ']' ∉ inner) ∧
    ((∀ t2, host ≠ '[' :: t2) → ':' ∉ host) := by
  simp only [parseHostPort] at h
  split at h
  · rename_i t heq
    split at h
    · split at h
      · injection h with h2
        exact bracket_host_ok sp auth t host heq hterm h2.symm
      · split at h
        · injection h with h2
          exact bracket_host_ok sp auth t host heq hterm h2.symm
        · exact absurd h (by simp)
      · exact absurd h (by simp)
    · exact absurd h (by simp)
  · rename_i hnb
    split at h
    · split at h
      · injection h with h2
        refine plain_host_ok sp auth host ?_ hterm h2.symm
        intro t2 hcontra
        exact hnb t2 hcontra
      · exact absurd h (by simp)
    · injection h with h2
      refine plain_host_ok sp auth host ?_ hterm h2.symm
      intro t2 hcontra
      exact hnb t2 hcontra

/-- The path component of `splitPSH`. -/
theorem splitPSH_fst (l : List Char) :
    (splitPSH l).1 = l.takeWhile (fun c => !(c = '?' ∨ c = '#' : Bool)) := by
  simp only [splitPSH]
  split <;> rfl

/-- Characters of a path cut at `?`/`#` avoid both. -/
theorem takeWhile_psh_clean (l : List Char) :
    ∀ c ∈ l.takeWhile (fun c => !(c = '?' ∨ c = '#' : Bool)), c ≠ '?' ∧ c ≠ '#' := by
  intro c hc
  have := List.mem_takeWhile_imp hc
  simp at this
  exact this

/-- Slashification preserves avoidance of `?` and `#`. -/
theorem slashify_path_clean (base : List Char) (hb : ∀ c ∈ base, c ≠ '?' ∧ c ≠ '#') :
    ∀ c ∈ base.map slashify, c ≠ '?' ∧ c ≠ '#' := by
  intro c hc
  rcases List.mem_map.mp hc with ⟨d, hd, rfl⟩
  constructor
  · intro hcontra
    rcases slashify_eq_cases d '?' hcontra with h1 | h1
    · exact (hb d hd).1 h1
    · exact absurd h1.2 (by decide)
  · intro hcontra
    rcases slashify_eq_cases d '#' hcontra with h1 | h1
    · exact (hb d hd).2 h1
    · exact absurd h1.2 (by decide)

/-- A slashified path contains no backslash. -/
theorem slashify_no_backslash (base : List Char) : '\\' ∉ base.map slashify := by
  intro hc
  rcases List.mem_map.mp hc with ⟨d, _, hde⟩
  exact slashify_ne_backslash d hde

/-- Terminator characters on `no-?#` positions are slashes or backslashes. -/
theorem authTerm_slash_or_backslash (sp : Bool) (c : Char)
    (ht : isAuthTerm sp c = true) (h1 : c ≠ '?') (h2 : c ≠ '#') :
    c = '/' ∨ c = '\\' := by
  simp only [isAuthTerm, decide_eq_true_eq] at ht
  rcases ht with h | h | h | h
  · exact Or.inl h
  · exact absurd h h1
  · exact absurd h h2
  · exact Or.inr h.2

/-- The membership form of `hterm` for an authority read by `takeWhile`. -/
theorem authority_term_facts (sp : Bool) (R : List Char) :
    ∀ c ∈ R.takeWhile (fun c => !isAuthTerm sp c), isAuthTerm sp c = false := by
  intro c hc
  have := List.mem_takeWhile_imp hc
  simpa using this

/-- `parseAbs` outputs satisfy the record invariants, given a well-formed
lowercased scheme. -/
theorem parseAbs_ok (schemeLow rest : List Char) (r : URLRec)
    (hs : ∃ c0 cs, schemeLow = c0 :: cs ∧ isSchemeStartChar c0 = true ∧
      ∀ c ∈ cs, isSchemeChar c = true)
    (hlow : schemeLow.map lowerChar = schemeLow)
    (h : parseAbs schemeLow rest = some r) : RecOk r := by
  simp only [parseAbs] at h
  split at h
  · -- special scheme
    rename_i hsp
    split at h
    · exact absurd h (by simp)
    · rename_i host hph
      split at h
      · exact absurd h (by simp)
      · rename_i hne
        injection h with h2
        subst h2
        have hhost := parseHostPort_ok _ _ host (authority_term_facts _ _) hph
        refine ⟨?_, ?_, ?_, ?_, ?_, ?_, ?_, ?_, ?_, ?_, ?_⟩
        · simp only [schemeOf]
          rw [List.dropLast_concat]
          exact hs
        · simp only [schemeOf]
          rw [List.dropLast_concat]
          exact hlow
        · simp only [schemeOf]
          rw [List.dropLast_concat]
        · simp only [isSpecial, schemeOf]
          rw [List.dropLast_concat]
          exact hhost.1
        · exact hhost.2.1
        · exact hhost.2.2.1
        · exact hhost.2.2.2.1
        · exact hhost.2.2.2.2
        · intro _
          exact hne
        · refine slashify_path_clean _ ?_
          split
          · intro c hc
            have hc2 : c = '/' := List.mem_singleton.mp hc
            subst hc2
            exact ⟨by decide, by decide⟩
          · rw [splitPSH_fst]
            exact takeWhile_psh_clean _
        · intro _
          refine ⟨?_, slashify_no_backslash _⟩
          split
          · exact ⟨[], rfl⟩
          · rename_i hpne
            rw [splitPSH_fst] at hpne ⊢
            cases htw : ((rest.dropWhile isSlashChar).dropWhile
                (fun c => !isAuthTerm (specialSchemes.contains schemeLow) c)).takeWhile
                (fun c => !(c = '?' ∨ c = '#' : Bool)) with
            | nil => exact absurd htw hpne
            | cons c t =>
              obtain ⟨t2, ht2⟩ := takeWhile_head _ htw
              have hterm : isAuthTerm (specialSchemes.contains schemeLow) c = true := by
                have := dropWhile_head_not
                  (p := fun c => !isAuthTerm (specialSchemes.contains schemeLow) c) _ c t2 ht2
                simpa using this
              have hhead : c ∈ ((rest.dropWhile isSlashChar).dropWhile
                  (fun c => !isAuthTerm (specialSchemes.contains schemeLow) c)).takeWhile
                  (fun c => !(c = '?' ∨ c = '#' : Bool)) := by
                rw [htw]
                exact List.mem_cons_self _ _
              have hqh := takeWhile_psh_clean _ c hhead
              rcases authTerm_slash_or_backslash _ c hterm hqh.1 hqh.2 with rfl | rfl
              · exact ⟨t.map slashify, rfl⟩
              · exact ⟨t.map slashify, rfl⟩
  · -- non-special scheme
    rename_i hsp
    split at h
    · -- authority arm after //
      rename_i r0
      split at h
      · exact absurd h (by simp)
      · rename_i host hph
        injection h with h2
        subst h2
        have hhost := parseHostPort_ok _ _ host (authority_term_facts _ _) hph
        refine ⟨?_, ?_, ?_, ?_, ?_, ?_, ?_, ?_, ?_, ?_, ?_⟩
        · simp only [schemeOf]
          rw [List.dropLast_concat]
          exact hs
        · simp only [schemeOf]
          rw [List.dropLast_concat]
          exact hlow
        · simp only [schemeOf]
          rw [List.dropLast_concat]
        · simp only [isSpecial, schemeOf]
          rw [List.dropLast_concat]
          exact hhost.1
        · exact hhost.2.1
        · exact hhost.2.2.1
        · exact hhost.2.2.2.1
        · exact hhost.2.2.2.2
        · intro hx
          simp only [isSpecial, schemeOf] at hx
          rw [List.dropLast_concat] at hx
          rw [hx] at hsp
          exact absurd rfl hsp
        · rw [splitPSH_fst]
          exact takeWhile_psh_clean _
        · intro hx
          simp only [isSpecial, schemeOf] at hx
          rw [List.dropLast_concat] at hx
          rw [hx] at hsp
          exact absurd rfl hsp
    · -- opaque arm
      injection h with h2
      subst h2
      refine ⟨?_, ?_, ?_, ?_, ?_, ?_, ?_, ?_, ?_, ?_, ?_⟩
      · simp only [schemeOf]
        rw [List.dropLast_concat]
        exact hs
      · simp only [schemeOf]
        rw [List.dropLast_concat]
        exact hlow
      · simp only [schemeOf]
        rw [List.dropLast_concat]
      · intro c hc
        simp at hc
      · intro c hc
        simp at hc
      · rfl
      · intro t ht
        simp at ht
      · intro _
        simp
      · intro hx
        simp only [isSpecial, schemeOf] at hx
        rw [List.dropLast_concat] at hx
        rw [hx] at hsp
        exact absurd rfl hsp
      · rw [splitPSH_fst]
        exact takeWhile_psh_clean _
      · intro hx
        simp only [isSpecial, schemeOf] at hx
        rw [List.dropLast_concat] at hx
        rw [hx] at hsp
        exact absurd rfl hsp

/-- A scheme split off by `splitScheme`, once lowercased, satisfies the
shape and idempotence hypotheses of `parseAbs_ok`. -/
theorem splitScheme_ok (l sch rest : List Char)
    (h : splitScheme l = some (sch, rest)) :
    (∃ c0 cs, sch.map lowerChar = c0 :: cs ∧ isSchemeStartChar c0 = true ∧
      ∀ c ∈ cs, isSchemeChar c = true) ∧
    (sch.map lowerChar).map lowerChar = sch.map lowerChar := by
  refine ⟨?_, map_lowerChar_idem _⟩
  cases l with
  | nil => simp [splitScheme] at h
  | cons c rest0 =>
    simp only [splitScheme] at h
    split at h
    · rename_i hstart
      split at h
      · injection h with h2
        have hsch2 : sch = c :: rest0.takeWhile isSchemeChar := by
          have := congrArg Prod.fst h2
          simpa using this.symm
        refine ⟨lowerChar c, (rest0.takeWhile isSchemeChar).map lowerChar, ?_, ?_, ?_⟩
        · rw [hsch2]
          rfl
        · exact isSchemeStartChar_lowerChar c hstart
        · intro d hd
          rcases List.mem_map.mp hd with ⟨e, he, rfl⟩
          exact isSchemeChar_lowerChar e (List.mem_takeWhile_imp he)
      · exact absurd h (by simp)
    · exact absurd h (by simp)

/-- `pathFix` preserves avoidance of `?` and `#`. -/
theorem pathFix_clean (sp : Bool) (p : List Char)
    (h : ∀ c ∈ p, c ≠ '?' ∧ c ≠ '#') :
    ∀ c ∈ pathFix sp p, c ≠ '?' ∧ c ≠ '#' := by
  unfold pathFix
  split
  · exact slashify_path_clean p h
  · exact h

/-- `pathFix` on a slash-headed path under a special scheme yields a
slash-headed, backslash-free path. -/
theorem pathFix_special (p t : List Char) (hp : p = '/' :: t) :
    (∃ p2, pathFix true p = '/' :: p2) ∧ '\\' ∉ pathFix true p := by
  subst hp
  refine ⟨⟨t.map slashify, rfl⟩, ?_⟩
  exact slashify_no_backslash _

/-- Replacing the path, search and hash of a well-formed record by a clean
path keeps it well-formed. -/
theorem recOk_update (bu : URLRec) (hRb : RecOk bu) (p s hsh : List Char)
    (hclean : ∀ c ∈ p, c ≠ '?' ∧ c ≠ '#')
    (hspec : isSpecial bu = true → (∃ p2, p = '/' :: p2) ∧ '\\' ∉ p) :
    RecOk ⟨bu.protocol, bu.hostname, p, s, hsh⟩ :=
  ⟨hRb.scheme_shape, hRb.scheme_lower, hRb.proto_eq, hRb.host_noterm,
   hRb.host_noat, hRb.host_lower, hRb.host_bracket, hRb.host_nocolon,
   hRb.host_nonempty, hclean, hspec⟩

/-- The path component cut from a slash-headed remainder is slash-headed. -/
theorem splitPSH_slash_head (t : List Char) :
    (splitPSH ('/' :: t)).1 =
      '/' :: t.takeWhile (fun c => !(c = '?' ∨ c = '#' : Bool)) := by
  rw [splitPSH_fst]
  rfl

/-- Every record produced by `parseURL` satisfies the invariants. -/
theorem parseURL_ok (l : List Char) (base : Option (List Char)) (r : URLRec)
    (h : parseURL l base = some r) : RecOk r := by
  simp only [parseURL] at h
  split at h
  · rename_i st hst
    obtain ⟨hs, hlow⟩ := splitScheme_ok l st.1 st.2 (by rw [hst])
    exact parseAbs_ok _ _ _ hs hlow h
  · split at h
    · exact absurd h (by simp)
    · rename_i b
      split at h
      · exact absurd h (by simp)
      · rename_i bst hbst
        split at h
        · exact absurd h (by simp)
        · rename_i bu hbu
          obtain ⟨hs, hlow⟩ := splitScheme_ok b bst.1 bst.2 (by rw [hbst])
          have hRb : RecOk bu := parseAbs_ok _ _ _ hs hlow hbu
          split at h
          · -- empty relative url: keep everything but the hash
            injection h with h2
            subst h2
            exact recOk_update bu hRb bu.pathname bu.search [] hRb.path_clean hRb.path_special
          · -- protocol-relative: reparse with the base scheme
            exact parseAbs_ok _ _ _ hRb.scheme_shape hRb.scheme_lower h
          · -- rooted path
            injection h with h2
            subst h2
            refine recOk_update bu hRb _ _ _ ?_ ?_
            · refine pathFix_clean _ _ ?_
              rw [splitPSH_fst]
              exact takeWhile_psh_clean _
            · intro hsp
              have hsp2 : specialSchemes.contains bu.protocol.dropLast = true := hsp
              rw [hsp2]
              exact pathFix_special _ _ (splitPSH_slash_head _)
          · -- query-only
            injection h with h2
            subst h2
            exact recOk_update bu hRb bu.pathname _ _ hRb.path_clean hRb.path_special
          · -- fragment-only
            injection h with h2
            subst h2
            exact recOk_update bu hRb bu.pathname bu.search _ hRb.path_clean hRb.path_special
          · -- merge with the base path
            injection h with h2
            subst h2
            refine recOk_update bu hRb _ _ _ ?_ ?_
            · refine pathFix_clean _ _ ?_
              intro c hc
              rcases List.mem_append.mp hc with hc1 | hc2
              · obtain ⟨t2, ht2⟩ := upToLastSlash_prefix_of bu.pathname
                exact hRb.path_clean c (by rw [ht2]; exact List.mem_append_left _ hc1)
              · rw [splitPSH_fst] at hc2
                exact takeWhile_psh_clean _ c hc2
            · intro hsp
              have hsp2 : specialSchemes.contains bu.protocol.dropLast = true := hsp
              rw [hsp2]
              obtain ⟨⟨p2, hp2⟩, _⟩ := hRb.path_special hsp
              obtain ⟨t2, ht2⟩ := upToLastSlash_head p2
              refine pathFix_special _ (t2 ++ (splitPSH l).1) ?_
              rw [hp2, ht2]
              rfl

/-- Slashification is the identity on backslash-free lists. -/
theorem map_slashify_id (l : List Char) (h : '\\' ∉ l) : l.map slashify = l := by
  induction l with
  | nil => rfl
  | cons c t ih =>
    simp only [List.map_cons]
    rw [ih (fun hc => h (List.mem_cons_of_mem _ hc))]
    have hc : c ≠ '\\' := fun he => h (he ▸ List.mem_cons_self _ _)
    simp [slashify, hc]

/-- `dropTrailingSlashes l` is a prefix of `l`. -/
theorem dropTrailingSlashes_prefix (l : List Char) :
    ∃ t2, l = dropTrailingSlashes l ++ t2 := by
  refine ⟨(l.reverse.takeWhile (fun c => (c = '/' : Bool))).reverse, ?_⟩
  unfold dropTrailingSlashes
  rw [← List.reverse_append, List.takeWhile_append_dropWhile, List.reverse_reverse]

/-- `normPath` of a slash-headed list is slash-headed. -/
theorem normPath_head (l t : List Char) (hl : l = '/' :: t) :
    ∃ t2, normPath l = '/' :: t2 := by
  subst hl
  simp only [normPath]
  split
  · exact ⟨[], rfl⟩
  · rename_i hne
    obtain ⟨t2, ht2⟩ := dropTrailingSlashes_prefix ('/' :: t)
    cases hd : dropTrailingSlashes ('/' :: t) with
    | nil => exact absurd hd hne
    | cons c rest =>
      rw [hd] at ht2
      injection ht2 with h1 h2
      exact ⟨rest, by rw [h1]⟩

/-- `normPath` keeps a clean path clean. -/
theorem normPath_clean (l : List Char) (h : ∀ c ∈ l, c ≠ '?' ∧ c ≠ '#') :
    ∀ c ∈ normPath l, c ≠ '?' ∧ c ≠ '#' := by
  intro c hc
  rcases normPath_subset l c hc with h1 | h1
  · exact h c h1
  · subst h1
    exact ⟨by decide, by decide⟩

/-- `normPath` introduces no backslash. -/
theorem normPath_no_backslash (l : List Char) (h : '\\' ∉ l) :
    '\\' ∉ normPath l := by
  intro hc
  rcases normPath_subset l _ hc with h1 | h1
  · exact h h1
  · exact absurd h1 (by decide)

/-- `splitPSH` of a clean remainder returns it whole as the path. -/
theorem splitPSH_clean (l : List Char) (h : ∀ c ∈ l, c ≠ '?' ∧ c ≠ '#') :
    splitPSH l = (l, [], []) := by
  have hall : ∀ c ∈ l, (fun c => !(c = '?' ∨ c = '#' : Bool)) c = true := by
    intro c hc
    simpa using h c hc
  simp only [splitPSH]
  rw [dropWhile_all _ hall, takeWhile_all _ hall]

/-- A host satisfying the record invariants parses back to itself. -/
theorem parseHostPort_id (host : List Char)
    (hnoat : ∀ c ∈ host, c ≠ '@')
    (hlow : host.map lowerChar = host)
    (hbr : ∀ t, host = '[' :: t → ∃ inner, t = inner ++ [']'] ∧ ']' ∉ inner)
    (hnc : (∀ t, host ≠ '[' :: t) → ':' ∉ host) :
    parseHostPort host = some host := by
  simp only [parseHostPort]
  rw [afterLastAt_no_at host hnoat]
  split
  · rename_i t
    obtain ⟨inner, hi, hni⟩ := hbr t rfl
    subst hi
    have hinner : ∀ d ∈ inner, (fun c => !(c = ']' : Bool)) d = true := by
      intro d hd
      simp only [Bool.not_eq_true']
      exact decide_eq_false (fun he => hni (he ▸ hd))
    have hdw : (inner ++ [']']).dropWhile (fun c => !(c = ']' : Bool)) = [']'] := by
      rw [dropWhile_append_all _ _ hinner]
      simp
    have htw : (inner ++ [']']).takeWhile (fun c => !(c = ']' : Bool)) = inner := by
      rw [takeWhile_append_all _ _ hinner]
      simp
    rw [hdw, htw]
    simpa using hlow
  · rename_i hns
    have hshape : ∀ t2, host ≠ '[' :: t2 := by
      intro t2 he
      exact hns t2 he
    have hncolon : ':' ∉ host := hnc hshape
    have hall : ∀ d ∈ host, (fun c => !(c = ':' : Bool)) d = true := by
      intro d hd
      simp only [Bool.not_eq_true']
      exact decide_eq_false (fun he => hncolon (he ▸ hd))
    have hdw : host.dropWhile (fun c => !(c = ':' : Bool)) = [] :=
      dropWhile_all _ hall
    have htw : host.takeWhile (fun c => !(c = ':' : Bool)) = host :=
      takeWhile_all _ hall
    rw [hdw, htw]
    simpa using hlow

/-- `splitScheme` recovers a well-formed scheme from a rendered URL. -/
theorem splitScheme_render (c0 : Char) (cs tail : List Char)
    (h0 : isSchemeStartChar c0 = true)
    (hcs : ∀ c ∈ cs, isSchemeChar c = true) :
    splitScheme ((c0 :: cs ++ [':']) ++ tail) = some (c0 :: cs, tail) := by
  have hshape : (c0 :: cs ++ [':']) ++ tail = c0 :: (cs ++ (':' :: tail)) := by
    simp
  rw [hshape]
  simp only [splitScheme, h0, if_true]
  have hcolon : isSchemeChar ':' = false := by decide
  have hdw : (cs ++ (':' :: tail)).dropWhile isSchemeChar = ':' :: tail := by
    rw [dropWhile_append_all _ _ hcs]
    simp [List.dropWhile_cons, hcolon]
  have htw : (cs ++ (':' :: tail)).takeWhile isSchemeChar = cs := by
    rw [takeWhile_append_all _ _ hcs]
    simp [List.takeWhile_cons, hcolon]
  rw [hdw, htw]
  rfl

/-- A character that is no authority terminator is no slash character. -/
theorem isSlashChar_of_authTerm_false (c : Char) (h : isAuthTerm true c = false) :
    isSlashChar c = false := by
  simp only [isAuthTerm, decide_eq_false_iff_not] at h
  push_neg at h
  simp only [isSlashChar, decide_eq_false_iff_not]
  push_neg
  refine ⟨h.1, ?_⟩
  intro he
  exact h.2.2.2 trivial he

/-- Evaluation of `parseAbs` on a special scheme whose authority parses to a
nonempty host. -/
theorem parseAbs_special_eval (schemeLow rest host : List Char)
    (hsp : specialSchemes.contains schemeLow = true)
    (hph : parseHostPort ((rest.dropWhile isSlashChar).takeWhile
        (fun c => !isAuthTerm true c)) = some host)
    (hne : host ≠ []) :
    parseAbs schemeLow rest =
      some { protocol := schemeLow ++ [':'], hostname := host,
             pathname := (if (splitPSH ((rest.dropWhile isSlashChar).dropWhile
                 (fun c => !isAuthTerm true c))).1 = [] then ['/']
               else (splitPSH ((rest.dropWhile isSlashChar).dropWhile
                 (fun c => !isAuthTerm true c))).1).map slashify,
             search := (splitPSH ((rest.dropWhile isSlashChar).dropWhile
                 (fun c => !isAuthTerm true c))).2.1,
             hash := (splitPSH ((rest.dropWhile isSlashChar).dropWhile
                 (fun c => !isAuthTerm true c))).2.2 } := by
  simp only [parseAbs, hsp]
  rw [hph]
  show (if host = [] then none else some _) = _
  rw [if_neg hne]

/-- Evaluation of `parseAbs` on a non-special scheme with a `//` authority. -/
theorem parseAbs_nonspecial_eval (schemeLow r0 host : List Char)
    (hsp : specialSchemes.contains schemeLow = false)
    (hph : parseHostPort (r0.takeWhile (fun c => !isAuthTerm false c)) = some host) :
    parseAbs schemeLow ('/' :: '/' :: r0) =
      some { protocol := schemeLow ++ [':'], hostname := host,
             pathname := (splitPSH (r0.dropWhile (fun c => !isAuthTerm false c))).1,
             search := (splitPSH (r0.dropWhile (fun c => !isAuthTerm false c))).2.1,
             hash := (splitPSH (r0.dropWhile (fun c => !isAuthTerm false c))).2.2 } := by
  simp only [parseAbs, hsp]
  rw [hph]
  rw [if_neg (by simp)]

/-- Re-parsing a normalized serialization recovers the components whenever
the path is `/`-rooted (or empty), which `RecOk.path_special` guarantees for
special schemes. -/
theorem renderNorm_reparse (r : URLRec) (hR : RecOk r) (b : Option (List Char))
    (hH : isSpecial r = true ∨ r.pathname = [] ∨ ∃ p2, r.pathname = '/' :: p2) :
    parseURL (renderNorm r) b =
      some ⟨r.protocol, r.hostname, normPath r.pathname, [], []⟩ := by
  obtain ⟨c0, cs, hsch, h0, hcs⟩ := hR.scheme_shape
  have hproto : r.protocol = (c0 :: cs) ++ [':'] := by
    rw [hR.proto_eq, hsch]
  have hrender : renderNorm r =
      (c0 :: cs ++ [':']) ++ ('/' :: '/' :: (r.hostname ++ normPath r.pathname)) := by
    simp only [renderNorm]
    rw [hproto]
  have hsplit : splitScheme (renderNorm r) =
      some (c0 :: cs, '/' :: '/' :: (r.hostname ++ normPath r.pathname)) := by
    rw [hrender]
    exact splitScheme_render c0 cs _ h0 hcs
  have hlowsch : (c0 :: cs).map lowerChar = c0 :: cs := by
    rw [← hsch]
    exact hR.scheme_lower
  have hspecial_eq : specialSchemes.contains (c0 :: cs) = isSpecial r := by
    rw [isSpecial, hsch]
  have hclean : ∀ c ∈ normPath r.pathname, c ≠ '?' ∧ c ≠ '#' :=
    normPath_clean _ hR.path_clean
  have hpshc : splitPSH (normPath r.pathname) = (normPath r.pathname, [], []) :=
    splitPSH_clean _ hclean
  have hmain : parseAbs (c0 :: cs) ('/' :: '/' :: (r.hostname ++ normPath r.pathname)) =
      some ⟨r.protocol, r.hostname, normPath r.pathname, [], []⟩ := by
    cases hsp : isSpecial r with
    | true =>
      obtain ⟨⟨p2, hp2⟩, hnb⟩ := hR.path_special hsp
      obtain ⟨t2, hnp⟩ := normPath_head _ _ hp2
      cases hhost : r.hostname with
      | nil => exact absurd hhost (hR.host_nonempty hsp)
      | cons hc ht =>
        have hterm : ∀ c ∈ (hc :: ht : List Char), isAuthTerm true c = false := by
          intro c hcm
          have := hR.host_noterm c (by rw [hhost]; exact hcm)
          rwa [hsp] at this
        have hslash : isSlashChar hc = false :=
          isSlashChar_of_authTerm_false hc (hterm hc (List.mem_cons_self _ _))
        have hdw2 : ('/' :: '/' :: ((hc :: ht) ++ normPath r.pathname)).dropWhile isSlashChar =
            (hc :: ht) ++ normPath r.pathname := by
          rw [List.dropWhile_cons, if_pos (by decide), List.dropWhile_cons, if_pos (by decide),
              List.cons_append, List.dropWhile_cons, if_neg (by simp [hslash]),
              ← List.cons_append]
        have hauthA : ((hc :: ht) ++ normPath r.pathname).takeWhile
            (fun c => !isAuthTerm true c) = hc :: ht := by
          rw [takeWhile_append_all _ _ (by intro c hcm; simp [hterm c hcm]),
              hnp, List.takeWhile_cons, if_neg (by decide)]
          simp
        have hr2A : ((hc :: ht) ++ normPath r.pathname).dropWhile
            (fun c => !isAuthTerm true c) = normPath r.pathname := by
          rw [dropWhile_append_all _ _ (by intro c hcm; simp [hterm c hcm]),
              hnp, List.dropWhile_cons, if_neg (by decide), ← hnp]
        have hphpA : parseHostPort (hc :: ht) = some (hc :: ht) := by
          have := parseHostPort_id r.hostname hR.host_noat hR.host_lower
            hR.host_bracket hR.host_nocolon
          rwa [hhost] at this
        have hph2 : parseHostPort ((('/' :: '/' :: ((hc :: ht) ++ normPath r.pathname)).dropWhile
            isSlashChar).takeWhile (fun c => !isAuthTerm true c)) = some (hc :: ht) := by
          rw [hdw2, hauthA]
          exact hphpA
        rw [parseAbs_special_eval (c0 :: cs) _ (hc :: ht) (hspecial_eq.trans hsp) hph2
          (by simp)]
        rw [hdw2, hr2A, hpshc]
        rw [show ((normPath r.pathname, ([] : List Char), ([] : List Char)).1) = normPath r.pathname from rfl]
        rw [if_neg (normPath_ne_nil _),
            map_slashify_id _ (normPath_no_backslash _ hnb), hproto]
    | false =>
      have hnp : ∃ t2, normPath r.pathname = '/' :: t2 := by
        rcases hH with hx | hpe | ⟨p2, hp2⟩
        · exact absurd hsp (by rw [hx]; simp)
        · exact ⟨[], by rw [hpe]; decide⟩
        · exact normPath_head _ _ hp2
      obtain ⟨t2, hnp⟩ := hnp
      have hterm : ∀ c ∈ r.hostname, isAuthTerm false c = false := by
        intro c hcm
        have := hR.host_noterm c hcm
        rwa [hsp] at this
      have hauthB : (r.hostname ++ normPath r.pathname).takeWhile
          (fun c => !isAuthTerm false c) = r.hostname := by
        rw [takeWhile_append_all _ _ (by intro c hcm; simp [hterm c hcm]),
            hnp, List.takeWhile_cons, if_neg (by decide)]
        simp
      have hr2B : (r.hostname ++ normPath r.pathname).dropWhile
          (fun c => !isAuthTerm false c) = normPath r.pathname := by
        rw [dropWhile_append_all _ _ (by intro c hcm; simp [hterm c hcm]),
            hnp, List.dropWhile_cons, if_neg (by decide), ← hnp]
      have hphpB : parseHostPort r.hostname = some r.hostname :=
        parseHostPort_id r.hostname hR.host_noat hR.host_lower
          hR.host_bracket hR.host_nocolon
      have hph2 : parseHostPort ((r.hostname ++ normPath r.pathname).takeWhile
          (fun c => !isAuthTerm false c)) = some r.hostname := by
        rw [hauthB]
        exact hphpB
      rw [parseAbs_nonspecial_eval (c0 :: cs) _ r.hostname
        (by rw [hspecial_eq]; exact hsp) hph2]
      rw [hr2B, hpshc, hproto]
  simp only [parseURL]
  rw [hsplit]
  show parseAbs ((c0 :: cs).map lowerChar)
      ('/' :: '/' :: (r.hostname ++ normPath r.pathname)) =
    some ⟨r.protocol, r.hostname, normPath r.pathname, [], []⟩
  rw [hlowsch]
  exact hmain

/-- C9: the idempotence claim is false as stated. `normalizeUrl` rewrites
`mailto:foo` (an opaque-path non-special URL) to `mailto://foo`, but
normalizing that output again appends a slash, yielding `mailto://foo/`. -/
theorem normalizeUrl_idempotent_counterexample :
    normalizeUrl "mailto:foo" "http://example.com/" = some "mailto://foo" ∧
    normalizeUrl "mailto://foo" "http://example.com/" = some "mailto://foo/" ∧
    ("mailto://foo/" : String) ≠ "mailto://foo" := by
  refine ⟨?_, ?_, ?_⟩ <;> decide

/-- C9 (amended): `normalizeUrl` is idempotent on every URL whose parse has a
special scheme, an empty path, or a slash-rooted path — in particular on every
`http`/`https` URL the crawler handles: if `normalizeUrl raw base = some n`
then `normalizeUrl n base = some n`. -/
theorem normalizeUrl_idempotent_amended (raw base n : String) (u : URLRec)
    (hu : jsURL raw (some base) = some u)
    (hH : isSpecial u = true ∨ u.pathname = [] ∨ ∃ p2, u.pathname = '/' :: p2)
    (hn : normalizeUrl raw base = some n) :
    normalizeUrl n base = some n := by
  have hR : RecOk u := parseURL_ok _ _ _ hu
  unfold normalizeUrl at hn
  rw [hu] at hn
  simp only [Option.map] at hn
  injection hn with hn2
  subst hn2
  unfold normalizeUrl jsURL
  rw [show (String.mk (renderNorm u)).toList = renderNorm u from rfl]
  rw [renderNorm_reparse u hR _ hH]
  simp [renderNorm, normPath_idem]

/-- Witness: the amended idempotence theorem applied to a concrete `http`
URL whose first normalization lowercases the scheme and host and collapses
the trailing slashes. -/
theorem normalizeUrl_idempotent_amended_witness :
    normalizeUrl "http://example.com/a" "http://base.org/" =
      some "http://example.com/a" :=
  normalizeUrl_idempotent_amended "HTTP://Example.com/a//" "http://base.org/"
    "http://example.com/a"
    ⟨"http:".toList, "example.com".toList, "/a//".toList, [], []⟩
    (by decide) (Or.inl (by decide)) (by decide)

end SeoSpec

















